import Mathlib

/-!
Verification of the Hyperion runtime's core data structures, shallowly
embedded from the C++ sources:

* `Hyperion.RB` — the SPSC lock-free ring buffer
  (`src/include/core/LockFreeRingBuffer.hpp`).
* `Hyperion.MM` — the Ghost-arena memory manager's header bootstrap and
  offset→address lookup (`src/src/mm/MemoryManager.cpp`).
* `Hyperion.Doc` — the document pipeline's quantize-and-append step
  (`src/src/core/ProcessingUnit.cpp`).
* `Hyperion.Slab` — the boundary-tag slab allocator
  (`src/include/memory/SlabAllocator.hpp`).

Machine integers are modelled as `Nat` (no operation in the embedded
fragments overflows 64 bits on the inputs considered; index wrap in the
ring buffer is the explicit bitmask from the source).  `f32` arithmetic
in the quantizer is idealized as exact rational arithmetic, with NaN and
the infinities represented explicitly so that division by zero and the
undefined float→int cast are tracked rather than silently collapsed.
Memory touched by the slab allocator is modelled as a map from byte
offsets to the 64-bit words the allocator reads and writes there; the
allocator accesses memory only through such whole-word reads and writes,
at offsets that are pairwise disjoint in every well-formed heap.
-/

namespace Hyperion

/-! ## SPSC ring buffer (`LockFreeRingBuffer.hpp`)

`head`/`tail` are the two atomic indices (their values, the memory
ordering annotations play no role in the sequential semantics of a
single call).  `buf` is the backing array `m_buffer`; the capacity `C`
is the template parameter, required by the source's `static_assert` to
be a power of two. -/

namespace RB

structure State (C : Nat) (α : Type) where
  head : Nat
  tail : Nat
  buf : Nat → α

/-- `LockFreeRingBuffer::push` (lines 42–58): compute
`next_tail = (tail+1) & (Capacity-1)`; fail iff it equals `head`;
otherwise write the slot at the old `tail` and store `next_tail`. -/
def push {C : Nat} {α : Type} (s : State C α) (v : α) : Bool × State C α :=
  let current_tail := s.tail
  let next_tail := (current_tail + 1) &&& (C - 1)
  let current_head := s.head
  if next_tail = current_head then
    (false, s)
  else
    (true, { s with
      buf := fun k => if k = current_tail then v else s.buf k,
      tail := next_tail })

/-- `LockFreeRingBuffer::pop` (lines 66–84): empty iff `head == tail`;
otherwise read the slot at `head` and advance `head`. -/
def pop {C : Nat} {α : Type} (s : State C α) : Option α × State C α :=
  let current_head := s.head
  let current_tail := s.tail
  if current_head = current_tail then
    (none, s)
  else
    let item := s.buf current_head
    let next_head := (current_head + 1) &&& (C - 1)
    (some item, { s with head := next_head })

/-- States reachable from the freshly constructed buffer
(`m_head = 0, m_tail = 0`, array contents arbitrary) by `push`/`pop`. -/
inductive Reachable (C : Nat) (α : Type) : State C α → Prop
  | init (buf0 : Nat → α) : Reachable C α ⟨0, 0, buf0⟩
  | push (s : State C α) (v : α) : Reachable C α s → Reachable C α (push s v).2
  | pop (s : State C α) : Reachable C α s → Reachable C α (pop s).2

/-- One operation of the capacity-4 scenario: `push v` or `pop`. -/
inductive Op where
  | push (v : Nat)
  | pop
deriving DecidableEq

/-- Result of one scenario operation: the `bool` of a push or the
`Option` of a pop. -/
def step (s : State 4 Nat) : Op → (Bool ⊕ Option Nat) × State 4 Nat
  | Op.push v => let r := push s v; (Sum.inl r.1, r.2)
  | Op.pop => let r := pop s; (Sum.inr r.1, r.2)

/-- Run a list of operations, collecting the results. -/
def run (s : State 4 Nat) : List Op → List (Bool ⊕ Option Nat)
  | [] => []
  | op :: ops => let r := step s op; r.1 :: run r.2 ops

/-- The freshly constructed capacity-4 buffer of the scenario. -/
def rb0 : State 4 Nat := ⟨0, 0, fun _ => 0⟩

/-- The operation sequence of the spec's "SPSC capacity 4" scenario. -/
def c1Ops : List Op :=
  [Op.push 1, Op.push 2, Op.push 3, Op.pop, Op.push 4, Op.push 5,
   Op.push 6, Op.pop, Op.pop, Op.pop, Op.push 7, Op.push 8, Op.push 9,
   Op.pop, Op.pop, Op.pop, Op.pop, Op.pop, Op.pop]

/-- The results the scenario claims for `c1Ops`. -/
def c1Claimed : List (Bool ⊕ Option Nat) :=
  [Sum.inl true, Sum.inl true, Sum.inl true, Sum.inr (some 1),
   Sum.inl true, Sum.inl true, Sum.inl false, Sum.inr (some 2),
   Sum.inr (some 3), Sum.inr (some 4), Sum.inl true, Sum.inl true,
   Sum.inl true, Sum.inr (some 5), Sum.inr (some 6), Sum.inr (some 7),
   Sum.inr (some 8), Sum.inr (some 9), Sum.inr none]

/-- The results the source code actually produces for `c1Ops`: a
capacity-4 ring holds at most three values (`(tail+1)&3 == head` is hit
one slot early), so `push 5` and `push 6` both fail, and the values 5
and 6 are never enqueued. -/
def c1Actual : List (Bool ⊕ Option Nat) :=
  [Sum.inl true, Sum.inl true, Sum.inl true, Sum.inr (some 1),
   Sum.inl true, Sum.inl false, Sum.inl false, Sum.inr (some 2),
   Sum.inr (some 3), Sum.inr (some 4), Sum.inl true, Sum.inl true,
   Sum.inl true, Sum.inr (some 7), Sum.inr (some 8), Sum.inr (some 9),
   Sum.inr none, Sum.inr none, Sum.inr none]

end RB

end Hyperion

/-- C1: the scenario's claimed results are not what the code produces —
running push 1,2,3 / pop / push 4,5 on the fresh capacity-4 buffer, the
push of 5 returns `false` (the buffer already holds 2,3,4 and the ring
keeps one slot empty), while the claim requires it to succeed. -/
theorem C1_ring_scenario_counterexample :
    Hyperion.RB.run Hyperion.RB.rb0 Hyperion.RB.c1Ops ≠ Hyperion.RB.c1Claimed := by
  decide

/-- C1 (amended): for the scenario's operation sequence on a fresh
capacity-4 buffer, push 1,2,3 succeed; pop returns 1; push 4 succeeds
but push 5 and push 6 both return `false` (full — a capacity-4 ring
buffer holds at most 3 values); the next three pops return 2, 3, 4;
push 7, 8, 9 succeed; the next three pops return 7, 8, 9; and the last
three pops return `None` (5 and 6 were never enqueued). -/
theorem C1_ring_scenario_actual :
    Hyperion.RB.run Hyperion.RB.rb0 Hyperion.RB.c1Ops = Hyperion.RB.c1Actual := by
  decide

namespace Hyperion.RB

/-- On any reachable state, `head < C` and `tail < C` (both indices are
always stored already masked by `Capacity - 1`). -/
theorem reachable_bounds {k : Nat} {α : Type} (s : State (2 ^ k) α)
    (h : Reachable (2 ^ k) α s) : s.head < 2 ^ k ∧ s.tail < 2 ^ k := by
  induction h with
  | init buf0 => exact ⟨Nat.two_pow_pos k, Nat.two_pow_pos k⟩
  | push s v _ ih =>
      unfold push
      dsimp only
      split
      · exact ih
      · refine ⟨ih.1, ?_⟩
        simp only [Nat.and_pow_two_sub_one_eq_mod]
        exact Nat.mod_lt _ (Nat.two_pow_pos k)
  | pop s _ ih =>
      unfold pop
      dsimp only
      split
      · exact ih
      · refine ⟨?_, ih.2⟩
        simp only [Nat.and_pow_two_sub_one_eq_mod]
        exact Nat.mod_lt _ (Nat.two_pow_pos k)

end Hyperion.RB

/-- C2: in every reachable state of a buffer whose capacity is the power
of two `2^k`, `push v` returns `false` iff `(tail+1) mod C = head` at
the call; otherwise it stores `v` in the slot at `tail`, advances `tail`
to `(tail+1) mod C`, leaves `head` alone, and returns `true`. -/
theorem C2_push_full_iff {k : Nat} {α : Type} (s : Hyperion.RB.State (2 ^ k) α)
    (_hs : Hyperion.RB.Reachable (2 ^ k) α s) (v : α) :
    ((Hyperion.RB.push s v).1 = false ↔ (s.tail + 1) % 2 ^ k = s.head)
    ∧ ((s.tail + 1) % 2 ^ k ≠ s.head →
        (Hyperion.RB.push s v).1 = true
        ∧ (Hyperion.RB.push s v).2.buf s.tail = v
        ∧ (Hyperion.RB.push s v).2.tail = (s.tail + 1) % 2 ^ k
        ∧ (Hyperion.RB.push s v).2.head = s.head) := by
  unfold Hyperion.RB.push
  simp only [Nat.and_pow_two_sub_one_eq_mod]
  by_cases h : (s.tail + 1) % 2 ^ k = s.head
  · simp [h]
  · simp [h]

/-- Witness for C2 at the fresh capacity-4 buffer (`k = 2`): the state
is reachable, and pushing 7 into it succeeds, storing 7 at slot 0 and
advancing `tail` to 1. -/
theorem C2_push_full_iff_witness :
    ((Hyperion.RB.push Hyperion.RB.rb0 7).1 = false
        ↔ (Hyperion.RB.rb0.tail + 1) % 2 ^ 2 = Hyperion.RB.rb0.head)
    ∧ ((Hyperion.RB.rb0.tail + 1) % 2 ^ 2 ≠ Hyperion.RB.rb0.head →
        (Hyperion.RB.push Hyperion.RB.rb0 7).1 = true
        ∧ (Hyperion.RB.push Hyperion.RB.rb0 7).2.buf Hyperion.RB.rb0.tail = 7
        ∧ (Hyperion.RB.push Hyperion.RB.rb0 7).2.tail = (Hyperion.RB.rb0.tail + 1) % 2 ^ 2
        ∧ (Hyperion.RB.push Hyperion.RB.rb0 7).2.head = Hyperion.RB.rb0.head) :=
  @C2_push_full_iff 2 Nat Hyperion.RB.rb0 (Hyperion.RB.Reachable.init _) 7

namespace Hyperion.MM

/-! ## Ghost-arena memory manager (`MemoryManager.cpp` / `.hpp`)

The 1 TB reservation size and the magic constant come from
`MemoryManager.hpp`; the base address is modelled as a `Nat` with `0`
playing the role of the null pointer. -/

def GHOST_SPACE_SIZE : Nat := 1099511627776

def GHOST_MAGIC : Nat := 0xC06DFEEDDEADBEEF

inductive RuntimeError where
  | None
  | InitializationFailed
  | PortAllocationFailed
  | ThreadSpawnFailed
  | MemoryReservationFailed
  | InvalidAccess
  | OperatingSystemError
deriving DecidableEq

/-- `MemoryHeader` (`MemoryManager.hpp` lines 23–27): three `u64`
fields, so `sizeof(MemoryHeader) = 24`. -/
structure MemoryHeader where
  magic : Nat
  vector_count : Nat
  head_offset : Nat
deriving DecidableEq

def sizeofMemoryHeader : Nat := 24

/-- `MemoryManager::get_ghost_ptr` (lines 126–131): reject offsets past
the reservation first, then reject a null base, else return
`base + offset`. -/
def get_ghost_ptr (m_base_addr : Nat) (offset : Nat) : Except RuntimeError Nat :=
  if GHOST_SPACE_SIZE ≤ offset then Except.error RuntimeError.InvalidAccess
  else if m_base_addr = 0 then Except.error RuntimeError.InitializationFailed
  else Except.ok (m_base_addr + offset)

/-- `MemoryManager::initialize_header` (lines 133–157), acting on the
header record at offset 0: if the magic does not match, write
`{GHOST_MAGIC, 0, sizeof(MemoryHeader)}`; otherwise keep the existing
header. -/
def initialize_header (h : MemoryHeader) : MemoryHeader :=
  if h.magic ≠ GHOST_MAGIC then
    { magic := GHOST_MAGIC, vector_count := 0, head_offset := sizeofMemoryHeader }
  else h

end Hyperion.MM

/-- C8: on a freshly reserved arena the header page is zero-filled, so
the magic (0) differs from `GHOST_MAGIC` and initialization writes
`{GHOST_MAGIC, 0, 24}` (24 = sizeof of the three-u64 header); if the
magic already equals `GHOST_MAGIC`, the header is accepted unchanged. -/
theorem C8_header_bootstrap (h : Hyperion.MM.MemoryHeader) :
    (h.magic = 0 →
       Hyperion.MM.initialize_header h =
         ⟨Hyperion.MM.GHOST_MAGIC, 0, 24⟩)
    ∧ (h.magic = Hyperion.MM.GHOST_MAGIC → Hyperion.MM.initialize_header h = h) := by
  constructor
  · intro h0
    have : h.magic ≠ Hyperion.MM.GHOST_MAGIC := by
      rw [h0]; decide
    simp [Hyperion.MM.initialize_header, this, Hyperion.MM.sizeofMemoryHeader]
  · intro hm
    simp [Hyperion.MM.initialize_header, hm]

/-- Witness for C8: the all-zero fresh header is rewritten to
`{GHOST_MAGIC, 0, 24}`, and a header already carrying the magic is kept
as is. -/
theorem C8_header_bootstrap_witness :
    Hyperion.MM.initialize_header ⟨0, 0, 0⟩ = ⟨Hyperion.MM.GHOST_MAGIC, 0, 24⟩
    ∧ Hyperion.MM.initialize_header ⟨Hyperion.MM.GHOST_MAGIC, 5, 312⟩ =
        ⟨Hyperion.MM.GHOST_MAGIC, 5, 312⟩ :=
  ⟨(C8_header_bootstrap ⟨0, 0, 0⟩).1 rfl,
   (C8_header_bootstrap ⟨Hyperion.MM.GHOST_MAGIC, 5, 312⟩).2 rfl⟩

/-- C10: `get_ghost_ptr` returns the `InvalidAccess` error exactly for
offsets at or past the 1 TB reservation size, and for every in-range
offset it returns the `InitializationFailed` error when the base
address is null (the arena was never reserved). -/
theorem C10_get_ghost_ptr_errors (base offset : Nat) :
    (Hyperion.MM.get_ghost_ptr base offset =
        Except.error Hyperion.MM.RuntimeError.InvalidAccess
      ↔ Hyperion.MM.GHOST_SPACE_SIZE ≤ offset)
    ∧ (offset < Hyperion.MM.GHOST_SPACE_SIZE → base = 0 →
        Hyperion.MM.get_ghost_ptr base offset =
          Except.error Hyperion.MM.RuntimeError.InitializationFailed) := by
  unfold Hyperion.MM.get_ghost_ptr
  by_cases hs : Hyperion.MM.GHOST_SPACE_SIZE ≤ offset
  · simp [hs]
  · by_cases hb : base = 0
    · simp [hs, hb]
    · simp [hs, hb]

/-- Witness for C10 at the null base: the offset `GHOST_SPACE_SIZE` is
rejected as `InvalidAccess`, and offset 0 with a null base yields
`InitializationFailed`. -/
theorem C10_get_ghost_ptr_errors_witness :
    (Hyperion.MM.get_ghost_ptr 0 Hyperion.MM.GHOST_SPACE_SIZE =
        Except.error Hyperion.MM.RuntimeError.InvalidAccess
      ↔ Hyperion.MM.GHOST_SPACE_SIZE ≤ Hyperion.MM.GHOST_SPACE_SIZE)
    ∧ (Hyperion.MM.GHOST_SPACE_SIZE < Hyperion.MM.GHOST_SPACE_SIZE → (0 : Nat) = 0 →
        Hyperion.MM.get_ghost_ptr 0 Hyperion.MM.GHOST_SPACE_SIZE =
          Except.error Hyperion.MM.RuntimeError.InitializationFailed) :=
  C10_get_ghost_ptr_errors 0 Hyperion.MM.GHOST_SPACE_SIZE

namespace Hyperion.Doc

/-! ## Document pipeline: `ProcessingUnit::ProcessDocument`
(`ProcessingUnit.cpp` lines 164–253)

`f32` arithmetic is idealized as exact rational arithmetic.  NaN and
the two infinities are explicit, so that the quantize loop's division
`(v - min) / (max - min)` is tracked faithfully when `max = min`, and
the float→int cast is `none` (C++ undefined behaviour) on NaN, an
infinity, or an out-of-int-range value.  The literal `1e-6` is taken as
the exact rational `1/1000000`; on this pipeline's lane values (sums of
integer term counts) the min/max difference is either `0` or at least
`1`, so the rounding of the C literal cannot change the branch. -/

inductive F32 where
  | val (q : ℚ)
  | nan
  | pinf
  | ninf
deriving DecidableEq

/-- IEEE subtraction on the modelled values (exact where finite). -/
def fsub : F32 → F32 → F32
  | F32.val a, F32.val b => F32.val (a - b)
  | F32.pinf, F32.val _ => F32.pinf
  | F32.ninf, F32.val _ => F32.ninf
  | F32.val _, F32.pinf => F32.ninf
  | F32.val _, F32.ninf => F32.pinf
  | F32.pinf, F32.ninf => F32.pinf
  | F32.ninf, F32.pinf => F32.ninf
  | _, _ => F32.nan

/-- IEEE division on the modelled values: `0/0` is NaN, `x/0` for
`x ≠ 0` is a signed infinity, finite/finite is exact. -/
def fdiv : F32 → F32 → F32
  | F32.val a, F32.val b =>
      if b = 0 then (if a = 0 then F32.nan else if 0 < a then F32.pinf else F32.ninf)
      else F32.val (a / b)
  | F32.val _, F32.pinf => F32.val 0
  | F32.val _, F32.ninf => F32.val 0
  | F32.pinf, F32.val b => if 0 ≤ b then F32.pinf else F32.ninf
  | F32.ninf, F32.val b => if 0 ≤ b then F32.ninf else F32.pinf
  | _, _ => F32.nan

/-- IEEE multiplication on the modelled values. -/
def fmul : F32 → F32 → F32
  | F32.val a, F32.val b => F32.val (a * b)
  | F32.pinf, F32.val b => if b = 0 then F32.nan else if 0 < b then F32.pinf else F32.ninf
  | F32.ninf, F32.val b => if b = 0 then F32.nan else if 0 < b then F32.ninf else F32.pinf
  | F32.val a, F32.pinf => if a = 0 then F32.nan else if 0 < a then F32.pinf else F32.ninf
  | F32.val a, F32.ninf => if a = 0 then F32.nan else if 0 < a then F32.ninf else F32.pinf
  | F32.pinf, F32.pinf => F32.pinf
  | F32.pinf, F32.ninf => F32.ninf
  | F32.ninf, F32.pinf => F32.ninf
  | F32.ninf, F32.ninf => F32.pinf
  | _, _ => F32.nan

/-- `std::round`: round half away from zero. -/
def roundAway (q : ℚ) : ℤ := if 0 ≤ q then ⌊q + 1 / 2⌋ else -⌊-q + 1 / 2⌋

def fround : F32 → F32
  | F32.val q => F32.val (roundAway q)
  | x => x

def truncTowardZero (q : ℚ) : ℤ := if 0 ≤ q then ⌊q⌋ else ⌈q⌉

/-- `static_cast<int>` of a float: truncation toward zero; undefined
(`none`) for NaN, infinities, and values whose truncation does not fit
in a 32-bit `int`. -/
def f32_to_int : F32 → Option ℤ
  | F32.val q =>
      if -(2 ^ 31) ≤ truncTowardZero q ∧ truncTowardZero q < 2 ^ 31
      then some (truncTowardZero q) else none
  | _ => none

/-- `int` subtraction with 32-bit overflow modelled as undefined. -/
def int_sub (a b : ℤ) : Option ℤ :=
  if -(2 ^ 31) ≤ a - b ∧ a - b < 2 ^ 31 then some (a - b) else none

/-- One iteration of the quantize loop (`ProcessingUnit.cpp` lines
226–238): `norm = (v - min)/(max - min)`, `scaled = norm * 255`,
`result = (int)std::round(scaled) - 128`, clamped to `[-128, 127]`.
The result is `none` when the C++ computation is undefined (NaN cast). -/
def quantizeLane (v min_val max_val : ℚ) : Option ℤ :=
  let norm := fdiv (fsub (F32.val v) (F32.val min_val)) (fsub (F32.val max_val) (F32.val min_val))
  let scaled := fmul norm (F32.val 255)
  match (f32_to_int (fround scaled)).bind (fun t => int_sub t 128) with
  | none => none
  | some r => some (if r < -128 then -128 else if 127 < r then 127 else r)

def VECTOR_DIM : Nat := 256

/-- The hashing vectorizer (lines 174–179): start from the all-zero
256-lane dense vector and add each term's count into the bucket
`term_id % 256`. -/
def denseVec (termCounts : List (Nat × Nat)) : Nat → ℚ :=
  termCounts.foldl
    (fun acc tc => fun k => if k = tc.1 % VECTOR_DIM then acc k + (tc.2 : ℚ) else acc k)
    (fun _ => 0)

/-- Lane minimum (lines 201–206): seeded with lane 0, folded over all
lanes. -/
def minVal (f : Nat → ℚ) : ℚ :=
  (List.range VECTOR_DIM).foldl (fun acc i => if f i < acc then f i else acc) (f 0)

/-- Lane maximum (lines 201–206). -/
def maxVal (f : Nat → ℚ) : ℚ :=
  (List.range VECTOR_DIM).foldl (fun acc i => if acc < f i then f i else acc) (f 0)

/-- The stored scale (lines 209–215): `(max-min)/255`, overwritten with
`1.0` in the flatline branch `|max-min| < 1e-6`. -/
def docScale (min_val max_val : ℚ) : F32 :=
  let scale := fdiv (fsub (F32.val max_val) (F32.val min_val)) (F32.val 255)
  if |max_val - min_val| < 1 / 1000000 then F32.val 1 else scale

/-- Memory-ordering annotation of a store, as written in the source
(`plain` : an ordinary non-atomic store). -/
inductive MemOrder where
  | plain
  | relaxed
  | acquire
  | release
deriving DecidableEq

/-- The stores `ProcessDocument` performs on the arena, in program
order. -/
inductive WEvent where
  | writeScale (off : Nat) (v : F32)
  | writeBias (off : Nat) (v : F32)
  | writeLane (off : Nat) (v : Option ℤ)
  | storeHeadOffset (v : Nat) (ord : MemOrder)
  | fetchAddVectorCount (n : Nat) (ord : MemOrder)
deriving DecidableEq

/-- `ProcessingUnit::ProcessDocument` after tokenization
(lines 167–250), parameterized by the token counts and the current
arena header.  Returns the updated header and the ordered list of
arena stores: the record bytes (scale at `head_offset`, bias at
`head_offset+4`, 256 quantized lanes at `head_offset+8…+263`), then the
plain store `head_offset += entry_size` (line 246 — an ordinary
non-atomic read-modify-write), then the release `fetch_add(1)` on
`vector_count` (line 249).  The lane guard `i < dense_vec.size()` of
line 227 is always true (`dense_vec` always has 256 lanes), so the lane
value is `dense_vec[i]`. -/
def processDocument (termCounts : List (Nat × Nat)) (hdr : MM.MemoryHeader) :
    MM.MemoryHeader × List WEvent :=
  if termCounts.isEmpty then (hdr, [])
  else
    let f := denseVec termCounts
    let current_offset := hdr.head_offset
    let entry_size := 4 + 4 + VECTOR_DIM
    let min_val := minVal f
    let max_val := maxVal f
    let scale := docScale min_val max_val
    let bias := F32.val min_val
    let evs :=
      [WEvent.writeScale current_offset scale,
       WEvent.writeBias (current_offset + 4) bias]
      ++ (List.range VECTOR_DIM).map
           (fun i => WEvent.writeLane (current_offset + 8 + i) (quantizeLane (f i) min_val max_val))
      ++ [WEvent.storeHeadOffset (current_offset + entry_size) MemOrder.plain,
          WEvent.fetchAddVectorCount 1 MemOrder.release]
    ({ hdr with head_offset := hdr.head_offset + entry_size,
                vector_count := hdr.vector_count + 1 }, evs)

/-- A document of 256 distinct terms, one occurrence each, hitting all
256 buckets: its dense vector is all-ones, the flatline case. -/
def tc256 : List (Nat × Nat) := (List.range 256).map (fun i => (i, 1))

end Hyperion.Doc

set_option maxRecDepth 8000

/-- C3 counterexample: for the document with one term (term id 0,
count 1) and header `{GHOST_MAGIC, 0, 24}`, the store of the new
`head_offset` performed by `ProcessDocument` is the plain non-atomic
store of source line 246 — the event trace contains
`storeHeadOffset 288` with the `plain` annotation and contains no
`storeHeadOffset` with the `release` annotation the claim requires. -/
theorem C3_counterexample_plain_store :
    ((Hyperion.Doc.processDocument [(0, 1)] ⟨Hyperion.MM.GHOST_MAGIC, 0, 24⟩).2.any
        (fun ev => match ev with
          | Hyperion.Doc.WEvent.storeHeadOffset _ Hyperion.Doc.MemOrder.release => true
          | _ => false)) = false
    ∧ ((Hyperion.Doc.processDocument [(0, 1)] ⟨Hyperion.MM.GHOST_MAGIC, 0, 24⟩).2.any
        (fun ev => match ev with
          | Hyperion.Doc.WEvent.storeHeadOffset 288 Hyperion.Doc.MemOrder.plain => true
          | _ => false)) = true := by
  decide

/-- C3 (amended): for every document with non-empty tokenization and
every arena header with `head_offset = h`, `ProcessDocument` emits, in
program order: the record bytes — scale at `h`, bias at `h+4`, and the
256 quantized lanes at `h+8 … h+263` (`sizeof(record) = 264`) — then a
*plain* (non-release, non-atomic) store of `head_offset = h + 264`, and
then, last of all, the atomic release `fetch_add(1)` on `vector_count`;
the counter is published last, after both the record bytes and the new
`head_offset`. -/
theorem C3_append_protocol (tc : List (Nat × Nat)) (hdr : Hyperion.MM.MemoryHeader)
    (h : tc ≠ []) :
    ∃ (s b : Hyperion.Doc.F32) (q : Nat → Option ℤ),
      (Hyperion.Doc.processDocument tc hdr).2 =
        [Hyperion.Doc.WEvent.writeScale hdr.head_offset s,
         Hyperion.Doc.WEvent.writeBias (hdr.head_offset + 4) b]
        ++ (List.range 256).map
             (fun i => Hyperion.Doc.WEvent.writeLane (hdr.head_offset + 8 + i) (q i))
        ++ [Hyperion.Doc.WEvent.storeHeadOffset (hdr.head_offset + 264)
              Hyperion.Doc.MemOrder.plain,
            Hyperion.Doc.WEvent.fetchAddVectorCount 1 Hyperion.Doc.MemOrder.release]
      ∧ (Hyperion.Doc.processDocument tc hdr).1.head_offset = hdr.head_offset + 264
      ∧ (Hyperion.Doc.processDocument tc hdr).1.vector_count = hdr.vector_count + 1 := by
  match tc with
  | [] => exact absurd rfl h
  | t :: ts =>
      refine ⟨Hyperion.Doc.docScale (Hyperion.Doc.minVal (Hyperion.Doc.denseVec (t :: ts)))
        (Hyperion.Doc.maxVal (Hyperion.Doc.denseVec (t :: ts))),
        Hyperion.Doc.F32.val (Hyperion.Doc.minVal (Hyperion.Doc.denseVec (t :: ts))),
        fun i => Hyperion.Doc.quantizeLane (Hyperion.Doc.denseVec (t :: ts) i)
          (Hyperion.Doc.minVal (Hyperion.Doc.denseVec (t :: ts)))
          (Hyperion.Doc.maxVal (Hyperion.Doc.denseVec (t :: ts))), rfl, rfl, rfl⟩

/-- Witness for C3 (amended) at the single-term document `[(0,1)]` and
the freshly initialized header. -/
theorem C3_append_protocol_witness :
    ∃ (s b : Hyperion.Doc.F32) (q : Nat → Option ℤ),
      (Hyperion.Doc.processDocument [(0, 1)] ⟨Hyperion.MM.GHOST_MAGIC, 0, 24⟩).2 =
        [Hyperion.Doc.WEvent.writeScale 24 s,
         Hyperion.Doc.WEvent.writeBias (24 + 4) b]
        ++ (List.range 256).map
             (fun i => Hyperion.Doc.WEvent.writeLane (24 + 8 + i) (q i))
        ++ [Hyperion.Doc.WEvent.storeHeadOffset (24 + 264) Hyperion.Doc.MemOrder.plain,
            Hyperion.Doc.WEvent.fetchAddVectorCount 1 Hyperion.Doc.MemOrder.release]
      ∧ (Hyperion.Doc.processDocument [(0, 1)] ⟨Hyperion.MM.GHOST_MAGIC, 0, 24⟩).1.head_offset
          = 24 + 264
      ∧ (Hyperion.Doc.processDocument [(0, 1)] ⟨Hyperion.MM.GHOST_MAGIC, 0, 24⟩).1.vector_count
          = 0 + 1 :=
  C3_append_protocol [(0, 1)] ⟨Hyperion.MM.GHOST_MAGIC, 0, 24⟩ (by decide)

namespace Hyperion.Doc

/-- Folding the clamp-to-minimum step over a constant lane value leaves
the seed unchanged. -/
theorem foldl_min_self (l : List Nat) (c : ℚ) :
    l.foldl (fun acc _ => if c < acc then c else acc) c = c := by
  induction l with
  | nil => rfl
  | cons a l ih => simpa using ih

/-- Folding the clamp-to-maximum step over a constant lane value leaves
the seed unchanged. -/
theorem foldl_max_self (l : List Nat) (c : ℚ) :
    l.foldl (fun acc _ => if acc < c then c else acc) c = c := by
  induction l with
  | nil => rfl
  | cons a l ih => simpa using ih

end Hyperion.Doc

/-- C6 (evaluating the code at the failing input): on the flatline
256-lane dense vector whose lanes are all `1` (reachable from a
document whose 256 distinct terms hit every bucket once), the lane
minimum and maximum are both `1`, the flatline branch is taken and the
stored scale is `1.0` as the claim says — but every lane of the
quantize loop computes `(v - min)/(max - min) = 0/0 = NaN` and then
casts NaN to `int`, which is undefined (`none`), not the claimed
`-128`: the code's own `avoid div by zero` fix touches only the scale,
not the loop. -/
theorem C6_flatline_lanes_undefined :
    Hyperion.Doc.minVal (fun _ => (1 : ℚ)) = 1
    ∧ Hyperion.Doc.maxVal (fun _ => (1 : ℚ)) = 1
    ∧ |Hyperion.Doc.maxVal (fun _ => (1 : ℚ)) - Hyperion.Doc.minVal (fun _ => (1 : ℚ))|
        < 1 / 1000000
    ∧ Hyperion.Doc.docScale (Hyperion.Doc.minVal (fun _ => (1 : ℚ)))
        (Hyperion.Doc.maxVal (fun _ => (1 : ℚ))) = Hyperion.Doc.F32.val 1
    ∧ ∀ i : Nat,
        Hyperion.Doc.quantizeLane ((fun _ => (1 : ℚ)) i)
          (Hyperion.Doc.minVal (fun _ => (1 : ℚ)))
          (Hyperion.Doc.maxVal (fun _ => (1 : ℚ))) = none := by
  have hmin : Hyperion.Doc.minVal (fun _ => (1 : ℚ)) = 1 := by
    show (List.range 256).foldl (fun acc _ => if (1 : ℚ) < acc then 1 else acc) 1 = 1
    exact Hyperion.Doc.foldl_min_self _ _
  have hmax : Hyperion.Doc.maxVal (fun _ => (1 : ℚ)) = 1 := by
    show (List.range 256).foldl (fun acc _ => if acc < (1 : ℚ) then 1 else acc) 1 = 1
    exact Hyperion.Doc.foldl_max_self _ _
  refine ⟨hmin, hmax, ?_, ?_, ?_⟩
  · rw [hmin, hmax]; norm_num
  · rw [hmin, hmax]
    simp [Hyperion.Doc.docScale]
  · intro i
    rw [hmin, hmax]
    simp [Hyperion.Doc.quantizeLane, Hyperion.Doc.fsub, Hyperion.Doc.fdiv,
      Hyperion.Doc.fmul, Hyperion.Doc.fround, Hyperion.Doc.f32_to_int]

namespace Hyperion.Slab

/-! ## Slab allocator (`SlabAllocator.hpp`)

Memory is a map from byte offsets (in the allocator's virtual
coordinate space) to the 64-bit words the allocator reads and writes
there: block headers (`sizeof(BlockHeader) = 64` due to
`alignas(64)`), block footers (`sizeof(BlockFooter) = 8`, stored at
`block + size - 8`), and the two free-node fields overlaid on a free
block's payload (`next_offset` at `block + 64`, `prev_offset` at
`block + 72`).  In every heap this development reasons about, distinct
word accesses are at least 8 bytes apart, so the per-offset map is
byte-faithful to the C++.  Every memory read in the model is performed
at the same program point as in the source (no read is hoisted past an
earlier write).  `u64` values are `Nat`: no arithmetic in the embedded
fragment can exceed 64 bits for heaps smaller than 2^63 bytes.

Allocator state: the word map, `m_free_list_head_offset` and
`m_first_block_offset` (`0` means null).  `m_base_offset` and
`m_total_size` are passed to the operations that use them.  The
traversal loop of `Allocate` is given explicit fuel; exhausted fuel
returns failure with the state untouched, which adds no transition a
real execution on a well-formed (finite, acyclic) free list lacks. -/

/-- Write the 64-bit word at byte offset `o`. -/
def wr (m : Nat → Nat) (o v : Nat) : Nat → Nat :=
  fun k => if k = o then v else m k

/-- `BlockHeader::GetSize`: `size_and_state & ~1`. -/
def getSize (w : Nat) : Nat := w - w % 2

/-- `BlockHeader::IsFree`: `(size_and_state & 1) != 0`. -/
def isFree (w : Nat) : Bool := w % 2 = 1

/-- `BlockHeader::Set(size, free)`: `(size & ~1) | free_bit`. -/
def setWord (size : Nat) (free : Bool) : Nat :=
  (size - size % 2) + (if free then 1 else 0)

/-- `BlockHeader::SetFree`: keep the size bits, replace the free bit. -/
def setFreeBit (w : Nat) (free : Bool) : Nat :=
  (w - w % 2) + (if free then 1 else 0)

/-- `BlockHeader::SetSize`: keep the free bit, replace the size bits. -/
def setSizeWord (w : Nat) (size : Nat) : Nat :=
  (size - size % 2) + w % 2

/-- Allocator state: the word map plus `m_free_list_head_offset` and
`m_first_block_offset`. -/
structure State where
  mem : Nat → Nat
  freeHead : Nat
  firstBlock : Nat

/-- `SlabAllocator::UpdateFooter`: copy the header word at `o` to the
footer at `o + GetSize - 8`. -/
def updFooter (m : Nat → Nat) (o : Nat) : Nat → Nat :=
  wr m (o + getSize (m o) - 8) (m o)

/-- `SlabAllocator::InsertHead` (lines 378–390): link `o` in front of
the current list head. -/
def insertHead (s : State) (o : Nat) : State :=
  let m1 := wr s.mem (o + 64) s.freeHead
  let m2 := wr m1 (o + 72) 0
  if s.freeHead ≠ 0 then
    { mem := wr m2 (s.freeHead + 72) o, freeHead := o, firstBlock := s.firstBlock }
  else
    { mem := m2, freeHead := o, firstBlock := s.firstBlock }

/-- `SlabAllocator::RemoveFromFreeList` (lines 392–407); each
`node->…` access re-reads memory exactly where the source does. -/
def removeFromFreeList (s : State) (o : Nat) : State :=
  let s1 :=
    if s.mem (o + 72) ≠ 0 then
      { s with mem := wr s.mem (s.mem (o + 72) + 64) (s.mem (o + 64)) }
    else
      { s with freeHead := s.mem (o + 64) }
  if s1.mem (o + 64) ≠ 0 then
    { s1 with mem := wr s1.mem (s1.mem (o + 64) + 72) (s1.mem (o + 72)) }
  else s1

/-- `SlabAllocator::Init` (lines 137–184): carve the aligned region
into one giant free block.  `adj` is the alignment adjustment the
source computes from the backing pointer (`aligned_base - base`); the
C++ leaves `m_first_block_offset` indeterminate when the region is too
small, modelled here as `0`.  The local `usable_size` of lines 167–170
is computed but never used, and is omitted. -/
def init (baseOff totalSize adj : Nat) (m0 : Nat → Nat) : State :=
  let effective_start := baseOff + adj
  let effective_size := totalSize - adj
  if effective_size < 64 + 8 then
    { mem := m0, freeHead := 0, firstBlock := 0 }
  else
    let m1 := wr m0 effective_start (setWord effective_size true)
    let m2 := updFooter m1 effective_start
    let m3 := wr m2 (effective_start + 64) 0
    let m4 := wr m3 (effective_start + 72) 0
    { mem := m4, freeHead := effective_start, firstBlock := effective_start }

/-- `(x + 63) & ~63`: round up to a multiple of 64. -/
def align64 (n : Nat) : Nat := (n + 63) - (n + 63) % 64

/-- The split branch of `Allocate` (lines 216–243): shrink the found
block to `required` (marked used, footer rewritten), create the free
remainder block at `curr + required`, copy the old free node's links
into the remainder's node, and redirect the neighbours (or the list
head) to the remainder. -/
def allocSplit (s : State) (curr required remaining : Nat) : State :=
  let m1 := wr s.mem curr (setWord required false)
  let m2 := updFooter m1 curr
  let nb := curr + required
  let m3 := wr m2 nb (setWord remaining true)
  let m4 := updFooter m3 nb
  let m5 := wr m4 (nb + 72) (m4 (curr + 72))
  let m6 := wr m5 (nb + 64) (m5 (curr + 64))
  let s1 : State :=
    if m6 (nb + 72) ≠ 0 then
      { mem := wr m6 (m6 (nb + 72) + 64) nb, freeHead := s.freeHead,
        firstBlock := s.firstBlock }
    else
      { mem := m6, freeHead := nb, firstBlock := s.firstBlock }
  if s1.mem (nb + 64) ≠ 0 then
    { s1 with mem := wr s1.mem (s1.mem (nb + 64) + 72) nb }
  else s1

/-- The whole-block branch of `Allocate` (lines 246–263): unlink the
block from the free list, then mark header and footer used.  (The
source's line 247 names a `SetUsed` member `BlockHeader` does not
declare; the block is marked used by the `SetFree(false)` and
`UpdateFooter` of lines 262–263.) -/
def allocWhole (s : State) (curr : Nat) : State :=
  let s1 := removeFromFreeList s curr
  let m1 := wr s1.mem curr (setFreeBit (s1.mem curr) false)
  { s1 with mem := updFooter m1 curr }

/-- The first-fit loop of `SlabAllocator::Allocate` (lines 204–271),
with explicit fuel for the `while` loop. -/
def allocLoop (required : Nat) : Nat → State → Nat → Nat × State
  | 0, s, _ => (0, s)
  | fuel + 1, s, curr =>
    if curr = 0 then (0, s)
    else if required ≤ getSize (s.mem curr) then
      let remaining := getSize (s.mem curr) - required
      if 64 + 64 + 8 ≤ remaining then
        (curr + 64, allocSplit s curr required remaining)
      else
        (curr + 64, allocWhole s curr)
    else
      allocLoop required fuel s (s.mem (curr + 64))

/-- `SlabAllocator::Allocate` (lines 186–274): a zero-size request
returns the null offset immediately; otherwise the payload is rounded
up to a multiple of 64, the total block size
`sizeof(BlockHeader) + payload + sizeof(BlockFooter)` is rounded up to
a multiple of 64 again, and the free list is scanned first-fit from
`m_free_list_head_offset`. -/
def allocate (fuel : Nat) (s : State) (size : Nat) : Nat × State :=
  if size = 0 then (0, s)
  else
    let payload_size := align64 size
    let required_total_size := align64 (64 + payload_size + 8)
    allocLoop required_total_size fuel s s.freeHead

/-- `SlabAllocator::Free` (lines 276–345).  A null payload offset and a
block whose header already carries the free bit both return with the
state untouched.  Otherwise the block is marked free (header and
footer), coalesced with the following block when that block starts
before `m_total_size + m_base_offset` and is free, coalesced into the
preceding block when the footer just below the header shows a free
block (in which case the already-listed previous block simply grows
and the call returns), and otherwise pushed on the head of the free
list.  `freeMark` is lines 288–290: set the header's free bit and
mirror it into the footer. -/
def freeMark (s : State) (block_offset : Nat) : State :=
  { s with mem := updFooter (wr s.mem block_offset (setFreeBit (s.mem block_offset) true)) block_offset }

/-- Lines 292–307 of `Free` (coalesce right): if the block at
`block_offset + size` starts before `m_total_size + m_base_offset` and
is free, unlink it and grow the current block over it (header and
footer rewritten). -/
def freeRight (baseOff totalSize : Nat) (s : State) (block_offset : Nat) : State :=
  let next_block_offset := block_offset + getSize (s.mem block_offset)
  if next_block_offset < totalSize + baseOff then
    if isFree (s.mem next_block_offset) then
      let sR := removeFromFreeList s next_block_offset
      let new_size := getSize (sR.mem block_offset) + getSize (sR.mem next_block_offset)
      { sR with mem := updFooter (wr sR.mem block_offset (setSizeWord (sR.mem block_offset) new_size)) block_offset }
    else s
  else s

/-- Lines 309–344 of `Free` (coalesce left, else insert): if a block
precedes and its footer at `block_offset - 8` shows it free, grow it
over the current block and return without inserting; otherwise push
the current block on the free-list head. -/
def freeLeft (s : State) (block_offset : Nat) : State :=
  if s.firstBlock < block_offset then
    let prev_footer := s.mem (block_offset - 8)
    if isFree prev_footer then
      let prev_offset := block_offset - getSize prev_footer
      let new_size := getSize (s.mem prev_offset) + getSize (s.mem block_offset)
      { s with mem := updFooter (wr s.mem prev_offset (setSizeWord (s.mem prev_offset) new_size)) prev_offset }
    else insertHead s block_offset
  else insertHead s block_offset

def freeOp (baseOff totalSize : Nat) (s : State) (payload_offset : Nat) : State :=
  if payload_offset = 0 then s
  else
    let block_offset := payload_offset - 64
    if isFree (s.mem block_offset) then s
    else
      freeLeft (freeRight baseOff totalSize (freeMark s block_offset) block_offset) block_offset

end Hyperion.Slab

namespace Hyperion.Slab

/-- The fresh 1 MiB slab of the first-fit scenario: backing region of
`2^20` bytes at virtual base offset 64, backing pointer already
64-byte aligned (`adj = 0`), zero-filled backing. -/
def c5s0 : State := init 64 1048576 0 (fun _ => 0)

def c5a1 : Nat × State := allocate 16 c5s0 100

def c5a2 : Nat × State := allocate 16 c5a1.2 100

def c5a3 : Nat × State := allocate 16 c5a2.2 100

/-- The state after freeing the middle allocation. -/
def c5s4 : State := freeOp 64 1048576 c5a3.2 c5a2.1

def c5a5 : Nat × State := allocate 16 c5s4 100

end Hyperion.Slab

/-- C5: on the fresh 1 MiB slab, three `Allocate(100)` calls return the
payload offsets 128, 384 and 640; after `Free(384)` (the middle slot),
the next `Allocate(100)` returns exactly 384 — the freed middle slot
found by the first-fit scan from the free-list head — and not a fresh
offset carved from the trailing free block (whose payload would be at
896). -/
theorem C5_first_fit_reuses_middle_slot :
    Hyperion.Slab.c5a1.1 = 128
    ∧ Hyperion.Slab.c5a2.1 = 384
    ∧ Hyperion.Slab.c5a3.1 = 640
    ∧ Hyperion.Slab.c5a5.1 = Hyperion.Slab.c5a2.1
    ∧ Hyperion.Slab.c5a5.1 ≠ 896 := by
  decide

/-- C7: `Free` on a payload offset whose block header already carries
the free bit returns with the allocator state — the word map (hence
every header, footer and free-list link) and both head fields —
entirely unchanged: the double free is detected by the header's free
bit and silently ignored. -/
theorem C7_double_free_ignored (baseOff totalSize : Nat) (s : Hyperion.Slab.State)
    (p : Nat) (hp : 64 ≤ p)
    (hfree : Hyperion.Slab.isFree (s.mem (p - 64)) = true) :
    Hyperion.Slab.freeOp baseOff totalSize s p = s := by
  have hp0 : ¬ p = 0 := by omega
  simp [Hyperion.Slab.freeOp, hp0, hfree]

/-- Witness for C7: freeing payload offset 64 in a state whose every
word is `1` (an odd word: free bit set) leaves the state unchanged. -/
theorem C7_double_free_ignored_witness :
    Hyperion.Slab.freeOp 0 1024 ⟨fun _ => 1, 0, 0⟩ 64 = ⟨fun _ => 1, 0, 0⟩ :=
  C7_double_free_ignored 0 1024 ⟨fun _ => 1, 0, 0⟩ 64 (by decide) (by decide)

/-- C9: `Allocate(0)` returns the null offset 0 immediately — for any
fuel and any state, without consulting the free list — and returns the
state unchanged. -/
theorem C9_allocate_zero_is_noop (fuel : Nat) (s : Hyperion.Slab.State) :
    Hyperion.Slab.allocate fuel s 0 = (0, s) := by
  simp [Hyperion.Slab.allocate]

namespace Hyperion.Slab

/-! ### Heap well-formedness for the coalescing invariant (C4)

A heap state is abstracted by the list of its blocks in address order
(`chainFrom`) together with the list of free-block offsets in
free-list order (`flSeg`).  `HeapOK` packages the properties the
allocator maintains; the claim's "no two adjacent blocks are both
free" is the `noadj` field. -/

/-- An abstract block: start offset, total size (header + payload +
footer), free flag. -/
structure Blk where
  off : Nat
  size : Nat
  free : Bool
deriving DecidableEq

/-- `chainFrom o endo bs`: the blocks `bs` tile `[o, endo)` exactly, in
address order. -/
def chainFrom : Nat → Nat → List Blk → Prop
  | o, endo, [] => o = endo
  | o, endo, b :: bs => b.off = o ∧ chainFrom (o + b.size) endo bs

/-- The words of block `b` agree with the abstraction: header at
`b.off` decodes to `(size, free)`, the footer at `b.off + size - 8`
mirrors the header, and the size is even (the low bit is the free bit)
and at least the 128-byte minimum block size. -/
def blkOK (m : Nat → Nat) (b : Blk) : Prop :=
  getSize (m b.off) = b.size ∧ isFree (m b.off) = b.free
  ∧ m (b.off + b.size - 8) = m b.off
  ∧ 128 ≤ b.size ∧ b.size % 2 = 0

/-- `flSegTo m p cur pe ce L`: starting with previous-node `p` and
cursor `cur`, the doubly-linked chain visits exactly the offsets of
`L` and leaves with previous-node `pe` and cursor `ce`.  Each visited
node's `prev_offset` field (`o + 72`) holds the previous node, and the
cursor advances through the `next_offset` field (`o + 64`). -/
def flSegTo (m : Nat → Nat) : Nat → Nat → Nat → Nat → List Nat → Prop
  | p, cur, pe, ce, [] => p = pe ∧ cur = ce
  | p, cur, pe, ce, o :: rest =>
      cur = o ∧ o ≠ 0 ∧ m (o + 72) = p ∧ flSegTo m o (m (o + 64)) pe ce rest

/-- `flSeg m p cur L`: the chain from cursor `cur` (with previous node
`p`) visits exactly `L` and terminates at the null cursor. -/
def flSeg (m : Nat → Nat) : Nat → Nat → List Nat → Prop
  | _, cur, [] => cur = 0
  | p, cur, o :: rest =>
      cur = o ∧ o ≠ 0 ∧ m (o + 72) = p ∧ flSeg m o (m (o + 64)) rest

/-- Offsets at least 128 bytes apart in either direction (distinct
blocks' offsets always are, since every block spans at least 128
bytes). -/
def Far (x y : Nat) : Prop := x + 128 ≤ y ∨ y + 128 ≤ x

/-- Full well-formedness of a heap state `s` over `[E, endo)` with
abstraction `bs` (blocks in address order), `L` (free list in list
order) and `live` (payload offsets handed out and not yet freed). -/
structure HeapOK (E endo : Nat) (s : State) (live : List Nat)
    (bs : List Blk) (L : List Nat) : Prop where
  epos : 0 < E
  firstB : s.firstBlock = E
  chain : chainFrom E endo bs
  blocks : ∀ b ∈ bs, blkOK s.mem b
  fl : flSeg s.mem 0 s.freeHead L
  nodupL : L.Nodup
  memL : ∀ o ∈ L, ∃ b ∈ bs, b.off = o ∧ b.free = true
  freeInL : ∀ b ∈ bs, b.free = true → b.off ∈ L
  noadj : List.Chain' (fun x y => x.free = false ∨ y.free = false) bs
  liveOK : ∀ p ∈ live, ∃ b ∈ bs, p = b.off + 64 ∧ b.free = false
  nodupLive : live.Nodup

/-- The heap invariant: some abstraction satisfies `HeapOK`. -/
def Inv (E endo : Nat) (s : State) (live : List Nat) : Prop :=
  ∃ bs L, HeapOK E endo s live bs L

/-- Heap states reachable from `Init` by `Allocate`/`Free` calls.
`live` tracks the currently allocated payload offsets; `Free` may only
be called on one of them (the spec makes other offsets undefined
behaviour).  `Allocate` may run with any fuel: enough fuel reproduces
any real execution, and exhausted fuel returns failure with the state
untouched. -/
inductive Reached (baseOff totalSize adj : Nat) : State → List Nat → Prop
  | init (m0 : Nat → Nat) :
      Reached baseOff totalSize adj (init baseOff totalSize adj m0) []
  | alloc (s : State) (live : List Nat) (fuel n : Nat) :
      Reached baseOff totalSize adj s live →
      Reached baseOff totalSize adj (allocate fuel s n).2
        (if (allocate fuel s n).1 = 0 then live else (allocate fuel s n).1 :: live)
  | freeDo (s : State) (live : List Nat) (p : Nat) :
      Reached baseOff totalSize adj s live → p ∈ live →
      Reached baseOff totalSize adj (freeOp baseOff totalSize s p) (live.erase p)

/-! ### Word-level lemmas -/

theorem wr_self (m : Nat → Nat) (o v : Nat) : wr m o v o = v := by
  simp [wr]

theorem wr_other (m : Nat → Nat) (o v k : Nat) (h : k ≠ o) : wr m o v k = m k := by
  simp [wr, h]

theorem getSize_setWord (n : Nat) (f : Bool) (h : n % 2 = 0) :
    getSize (setWord n f) = n := by
  cases f <;> simp [getSize, setWord] <;> omega

theorem isFree_setWord (n : Nat) (f : Bool) : isFree (setWord n f) = f := by
  cases f <;> simp [isFree, setWord] <;> omega

theorem getSize_setFreeBit (w : Nat) (f : Bool) :
    getSize (setFreeBit w f) = getSize w := by
  cases f <;> simp [getSize, setFreeBit] <;> omega

theorem isFree_setFreeBit (w : Nat) (f : Bool) : isFree (setFreeBit w f) = f := by
  cases f <;> simp [isFree, setFreeBit] <;> omega

theorem getSize_setSizeWord (w n : Nat) (h : n % 2 = 0) :
    getSize (setSizeWord w n) = n := by
  simp [getSize, setSizeWord]
  omega

theorem isFree_setSizeWord (w n : Nat) : isFree (setSizeWord w n) = isFree w := by
  simp [isFree, setSizeWord]
  omega

theorem isFree_false_of_mod (w : Nat) (h : w % 2 = 0) : isFree w = false := by
  simp [isFree]
  omega

theorem getSize_even (w : Nat) : getSize w % 2 = 0 := by
  simp [getSize]
  omega

/-! ### Chain lemmas -/

theorem chainFrom_le {o endo : Nat} {bs : List Blk} (h : chainFrom o endo bs) :
    o ≤ endo := by
  induction bs generalizing o with
  | nil => exact h.le
  | cons c bs ih =>
      have := ih h.2
      omega

theorem chainFrom_bounds {o endo : Nat} {bs : List Blk} (h : chainFrom o endo bs) :
    ∀ b ∈ bs, o ≤ b.off ∧ b.off + b.size ≤ endo := by
  induction bs generalizing o with
  | nil => intro b hb; cases hb
  | cons c bs ih =>
      intro b hb
      obtain ⟨hc, hrest⟩ := h
      rcases List.mem_cons.mp hb with hb | hb
      · subst hb
        have := chainFrom_le hrest
        omega
      · have := ih hrest b hb
        omega

theorem chainFrom_append {o endo : Nat} {bs1 bs2 : List Blk} :
    chainFrom o endo (bs1 ++ bs2) ↔
      ∃ k, chainFrom o k bs1 ∧ chainFrom k endo bs2 := by
  induction bs1 generalizing o with
  | nil =>
      simp only [List.nil_append]
      constructor
      · intro h; exact ⟨o, rfl, h⟩
      · rintro ⟨k, hk, h⟩
        cases hk
        exact h
  | cons c bs1 ih =>
      simp only [List.cons_append, chainFrom]
      constructor
      · rintro ⟨hc, h⟩
        obtain ⟨k, h1, h2⟩ := ih.mp h
        exact ⟨k, ⟨hc, h1⟩, h2⟩
      · rintro ⟨k, ⟨hc, h1⟩, h2⟩
        exact ⟨hc, ih.mpr ⟨k, h1, h2⟩⟩

theorem chainFrom_pairwise {o endo : Nat} {bs : List Blk} (h : chainFrom o endo bs) :
    bs.Pairwise (fun a b => a.off + a.size ≤ b.off) := by
  induction bs generalizing o with
  | nil => exact List.Pairwise.nil
  | cons c bs ih =>
      obtain ⟨hc, hrest⟩ := h
      refine List.Pairwise.cons ?_ (ih hrest)
      intro b hb
      have := chainFrom_bounds hrest b hb
      omega

/-- For positionally distinct elements of a pairwise-related list, the
relation holds one way or the other; for value-distinct elements this
needs no symmetry of `R`. -/
theorem pairwise_or {α : Type} {R : α → α → Prop} {l : List α} (h : l.Pairwise R)
    {a b : α} (ha : a ∈ l) (hb : b ∈ l) (hne : a ≠ b) : R a b ∨ R b a := by
  induction l with
  | nil => cases ha
  | cons c l ih =>
      rcases List.pairwise_cons.mp h with ⟨hc, hl⟩
      rcases List.mem_cons.mp ha with ha | ha <;> rcases List.mem_cons.mp hb with hb | hb
      · exact absurd (ha.trans hb.symm) hne
      · exact Or.inl (ha ▸ hc b hb)
      · exact Or.inr (hb ▸ hc a ha)
      · exact ih hl ha hb

/-! ### Free-list segment lemmas -/

theorem flSeg_append {m : Nat → Nat} {p c : Nat} {L1 L2 : List Nat} :
    flSeg m p c (L1 ++ L2) ↔ ∃ pm cm, flSegTo m p c pm cm L1 ∧ flSeg m pm cm L2 := by
  induction L1 generalizing p c with
  | nil =>
      simp only [List.nil_append]
      constructor
      · intro h; exact ⟨p, c, ⟨rfl, rfl⟩, h⟩
      · rintro ⟨pm, cm, ⟨hp, hc⟩, h⟩
        cases hp; cases hc
        exact h
  | cons o rest ih =>
      simp only [List.cons_append, flSeg, flSegTo]
      constructor
      · rintro ⟨hc, ho, hp, h⟩
        obtain ⟨pm, cm, h1, h2⟩ := ih.mp h
        exact ⟨pm, cm, ⟨hc, ho, hp, h1⟩, h2⟩
      · rintro ⟨pm, cm, ⟨hc, ho, hp, h1⟩, h2⟩
        exact ⟨hc, ho, hp, ih.mpr ⟨pm, cm, h1, h2⟩⟩

theorem flSeg_mem_ne_zero {m : Nat → Nat} {p c : Nat} {L : List Nat}
    (h : flSeg m p c L) : ∀ x ∈ L, x ≠ 0 := by
  induction L generalizing p c with
  | nil => intro x hx; cases hx
  | cons o rest ih =>
      intro x hx
      obtain ⟨hc, ho, hp, hrest⟩ := h
      rcases List.mem_cons.mp hx with hx | hx
      · exact hx ▸ ho
      · exact ih hrest x hx

theorem flSegTo_frame {m m' : Nat → Nat} {p c pe ce : Nat} {L : List Nat}
    (h : flSegTo m p c pe ce L)
    (hagree : ∀ x ∈ L, m' (x + 64) = m (x + 64) ∧ m' (x + 72) = m (x + 72)) :
    flSegTo m' p c pe ce L := by
  induction L generalizing p c with
  | nil => exact h
  | cons o rest ih =>
      obtain ⟨hc, ho, hp, hrest⟩ := h
      refine ⟨hc, ho, ?_, ?_⟩
      · rw [(hagree o (by simp)).2]; exact hp
      · rw [(hagree o (by simp)).1]
        exact ih hrest (fun x hx => hagree x (by simp [hx]))

theorem flSeg_frame {m m' : Nat → Nat} {p c : Nat} {L : List Nat}
    (h : flSeg m p c L)
    (hagree : ∀ x ∈ L, m' (x + 64) = m (x + 64) ∧ m' (x + 72) = m (x + 72)) :
    flSeg m' p c L := by
  induction L generalizing p c with
  | nil => exact h
  | cons o rest ih =>
      obtain ⟨hc, ho, hp, hrest⟩ := h
      refine ⟨hc, ho, ?_, ?_⟩
      · rw [(hagree o (by simp)).2]; exact hp
      · rw [(hagree o (by simp)).1]
        exact ih hrest (fun x hx => hagree x (by simp [hx]))

theorem flSegTo_last {m : Nat → Nat} {p c pe ce : Nat} {o : Nat} {rest : List Nat}
    (h : flSegTo m p c pe ce (o :: rest)) : pe ∈ o :: rest ∧ ce = m (pe + 64) := by
  induction rest generalizing p c o with
  | nil =>
      obtain ⟨hc, ho, hp, hpe, hce⟩ := h
      subst hpe
      exact ⟨by simp, hce.symm⟩
  | cons o2 rest ih =>
      obtain ⟨hc, ho, hp, hrest⟩ := h
      obtain ⟨hmem, hce⟩ := ih hrest
      exact ⟨by simp [List.mem_cons.mp hmem], hce⟩

/-- Rewriting only the last node's `next_offset` field (and nothing
else among the segment's node fields) retargets the exit cursor. -/
theorem flSegTo_set_last_next {m m' : Nat → Nat} {p c pe ce : Nat} {o : Nat}
    {rest : List Nat}
    (h : flSegTo m p c pe ce (o :: rest)) (hnd : (o :: rest).Nodup)
    (hprev : ∀ x ∈ o :: rest, m' (x + 72) = m (x + 72))
    (hnext : ∀ x ∈ o :: rest, x ≠ pe → m' (x + 64) = m (x + 64)) :
    flSegTo m' p c pe (m' (pe + 64)) (o :: rest) := by
  induction rest generalizing p c o with
  | nil =>
      obtain ⟨hc, ho, hp, hpe, hce⟩ := h
      subst hpe
      exact ⟨hc, ho, by rw [hprev o (by simp)]; exact hp, rfl, rfl⟩
  | cons o2 rest ih =>
      obtain ⟨hc, ho, hp, hrest⟩ := h
      have hpe_mem : pe ∈ o2 :: rest := (flSegTo_last hrest).1
      have hone : o ≠ pe := by
        intro hcontra
        exact (List.nodup_cons.mp hnd).1 (hcontra ▸ hpe_mem)
      refine ⟨hc, ho, by rw [hprev o (by simp)]; exact hp, ?_⟩
      rw [hnext o (by simp) hone]
      exact ih hrest (List.nodup_cons.mp hnd).2
        (fun x hx => hprev x (by simp [hx]))
        (fun x hx hxpe => hnext x (by simp [hx]) hxpe)

/-- `Far` implies distinctness. -/
theorem Far.ne {x y : Nat} (h : Far x y) : x ≠ y := by
  rcases h with h | h <;> omega

theorem nodup_of_pairwise_far {L : List Nat} (h : L.Pairwise Far) : L.Nodup :=
  h.imp Far.ne

end Hyperion.Slab

section
open Hyperion.Slab

/-- `RemoveFromFreeList` on a member `o` of a well-formed doubly-linked
list removes exactly `o`, keeps `m_first_block_offset`, and writes no
memory word outside the `next`/`prev` fields of the list's nodes. -/
theorem Hyperion.Slab.remove_spec (s : State) (o : Nat) (L1 L2 : List Nat)
    (hfl : flSeg s.mem 0 s.freeHead (L1 ++ o :: L2))
    (hfar : (L1 ++ o :: L2).Pairwise Far) :
    flSeg (removeFromFreeList s o).mem 0 (removeFromFreeList s o).freeHead (L1 ++ L2)
    ∧ (removeFromFreeList s o).firstBlock = s.firstBlock
    ∧ (∀ k : Nat, (∀ x ∈ L1 ++ o :: L2, k ≠ x + 64 ∧ k ≠ x + 72) →
        (removeFromFreeList s o).mem k = s.mem k) := by
  obtain ⟨pm, cm, hseg1, hseg2⟩ := flSeg_append.mp hfl
  obtain ⟨hcm, ho0, hoprev, hrest⟩ := hseg2
  rw [hcm] at hseg1
  clear hcm
  have hne0 := flSeg_mem_ne_zero hfl
  have hfar3 := List.pairwise_append.mp hfar
  rcases L1 with _ | ⟨l, ls⟩
  · -- no predecessor: pm = 0 and the head is o
    obtain ⟨hpm, hhead⟩ := hseg1
    rcases L2 with _ | ⟨n, L2x⟩
    · -- no successor either: the list becomes empty
      have hnxt : s.mem (o + 64) = 0 := hrest
      have heq : removeFromFreeList s o = { s with freeHead := 0 } := by
        simp [removeFromFreeList, hoprev, ← hpm, hnxt]
      rw [heq]
      exact ⟨rfl, rfl, fun k _ => rfl⟩
    · -- successor `n`: head := n and n.prev := 0
      obtain ⟨hnxt, hn0, hnprev, hrest2⟩ := hrest
      have hfarn : ∀ x ∈ L2x, Far n x :=
        (List.pairwise_cons.mp (List.pairwise_cons.mp hfar3.2.1).2).1
      have heq : removeFromFreeList s o =
          { s with freeHead := n, mem := wr s.mem (n + 72) pm } := by
        simp [removeFromFreeList, hoprev, ← hpm, hnxt, hn0]
      rw [heq]
      dsimp only
      refine ⟨⟨rfl, hn0, ?_, ?_⟩, rfl, ?_⟩
      · rw [wr_self, hpm]
      · rw [wr_other _ _ _ _ (by omega : n + 64 ≠ n + 72)]
        refine flSeg_frame hrest2 ?_
        intro x hx
        have hfx := hfarn x hx
        exact ⟨wr_other _ _ _ _ (by rcases hfx with h | h <;> omega),
          wr_other _ _ _ _ (by rcases hfx with h | h <;> omega)⟩
      · intro k hk
        exact wr_other _ _ _ _ (hk n (by simp)).2
  · -- a predecessor exists: pm is the last node of l :: ls
    have hpm_mem : pm ∈ l :: ls := (flSegTo_last hseg1).1
    have hpm0 : pm ≠ 0 := hne0 pm (List.mem_append.mpr (Or.inl hpm_mem))
    have hfar_pm_o : Far pm o := hfar3.2.2 pm hpm_mem o (by simp)
    have hnd1 : (l :: ls).Nodup := nodup_of_pairwise_far hfar3.1
    have hro64 : ∀ v, wr s.mem (pm + 64) v (o + 64) = s.mem (o + 64) := fun v =>
      wr_other _ _ _ _ (by rcases hfar_pm_o with h | h <;> omega)
    have hro72 : ∀ v, wr s.mem (pm + 64) v (o + 72) = s.mem (o + 72) := fun v =>
      wr_other _ _ _ _ (by rcases hfar_pm_o with h | h <;> omega)
    rcases L2 with _ | ⟨n, L2x⟩
    · -- no successor: only the predecessor's next field changes
      have hnxt : s.mem (o + 64) = 0 := hrest
      have heq : removeFromFreeList s o =
          { s with mem := wr s.mem (pm + 64) 0 } := by
        simp [removeFromFreeList, hoprev, hpm0, hro64, hro72, hnxt]
      rw [heq]
      dsimp only
      refine ⟨?_, rfl, ?_⟩
      · have hprev : ∀ x ∈ l :: ls, wr s.mem (pm + 64) 0 (x + 72) = s.mem (x + 72) := by
          intro x hx
          rcases eq_or_ne x pm with hxe | hxe
          · subst hxe
            exact wr_other _ _ _ _ (by omega)
          · have hfx : Far x pm ∨ Far pm x := pairwise_or hfar3.1 hx hpm_mem hxe
            exact wr_other _ _ _ _ (by rcases hfx with (h | h) | (h | h) <;> omega)
        have hnext : ∀ x ∈ l :: ls, x ≠ pm →
            wr s.mem (pm + 64) 0 (x + 64) = s.mem (x + 64) := by
          intro x hx hxpm
          have hfx : Far x pm ∨ Far pm x := pairwise_or hfar3.1 hx hpm_mem hxpm
          exact wr_other _ _ _ _ (by rcases hfx with (h | h) | (h | h) <;> omega)
        have hmain := flSegTo_set_last_next hseg1 hnd1 hprev hnext
        rw [wr_self] at hmain
        refine flSeg_append.mpr ⟨pm, 0, hmain, ?_⟩
        rfl
      · intro k hk
        exact wr_other _ _ _ _ (hk pm (List.mem_append.mpr (Or.inl hpm_mem))).1
    · -- both neighbours exist
      obtain ⟨hnxt, hn0, hnprev, hrest2⟩ := hrest
      have hfarn : ∀ x ∈ L2x, Far n x :=
        (List.pairwise_cons.mp (List.pairwise_cons.mp hfar3.2.1).2).1
      have hfar_pm_n : Far pm n := hfar3.2.2 pm hpm_mem n (by simp)
      have heq : removeFromFreeList s o =
          { s with mem := wr (wr s.mem (pm + 64) n) (n + 72) pm } := by
        simp [removeFromFreeList, hoprev, hpm0, hro64, hro72, hnxt, hn0]
      rw [heq]
      dsimp only
      have hwm64 : wr (wr s.mem (pm + 64) n) (n + 72) pm (pm + 64) = n := by
        rw [wr_other _ _ _ _ (by rcases hfar_pm_n with h | h <;> omega), wr_self]
      refine ⟨?_, rfl, ?_⟩
      · refine flSeg_append.mpr ⟨pm, n, ?_, ?_⟩
        · have hprev : ∀ x ∈ l :: ls,
              wr (wr s.mem (pm + 64) n) (n + 72) pm (x + 72) = s.mem (x + 72) := by
            intro x hx
            have hfxn : Far x n := hfar3.2.2 x hx n (by simp)
            rw [wr_other _ _ _ _ (by rcases hfxn with h | h <;> omega)]
            rcases eq_or_ne x pm with hxe | hxe
            · subst hxe
              exact wr_other _ _ _ _ (by omega)
            · have hfx : Far x pm ∨ Far pm x := pairwise_or hfar3.1 hx hpm_mem hxe
              exact wr_other _ _ _ _ (by rcases hfx with (h | h) | (h | h) <;> omega)
          have hnext : ∀ x ∈ l :: ls, x ≠ pm →
              wr (wr s.mem (pm + 64) n) (n + 72) pm (x + 64) = s.mem (x + 64) := by
            intro x hx hxpm
            have hfxn : Far x n := hfar3.2.2 x hx n (by simp)
            have hfx : Far x pm ∨ Far pm x := pairwise_or hfar3.1 hx hpm_mem hxpm
            rw [wr_other _ _ _ _ (by rcases hfxn with h | h <;> omega)]
            exact wr_other _ _ _ _ (by rcases hfx with (h | h) | (h | h) <;> omega)
          have hmain := flSegTo_set_last_next hseg1 hnd1 hprev hnext
          rw [hwm64] at hmain
          exact hmain
        · refine ⟨rfl, hn0, by rw [wr_self], ?_⟩
          have hn64 : wr (wr s.mem (pm + 64) n) (n + 72) pm (n + 64) = s.mem (n + 64) := by
            rw [wr_other _ _ _ _ (by omega),
              wr_other _ _ _ _ (by rcases hfar_pm_n with h | h <;> omega)]
          rw [hn64]
          refine flSeg_frame hrest2 ?_
          intro x hx
          have hfx := hfarn x hx
          have hfpx : Far pm x := hfar3.2.2 pm hpm_mem x (by simp [hx])
          constructor
          · rw [wr_other _ _ _ _ (by rcases hfx with h | h <;> omega)]
            exact wr_other _ _ _ _ (by rcases hfpx with h | h <;> omega)
          · rw [wr_other _ _ _ _ (by rcases hfx with h | h <;> omega)]
            exact wr_other _ _ _ _ (by rcases hfpx with h | h <;> omega)
      · intro k hk
        rw [wr_other _ _ _ _ (hk n (by simp)).2]
        exact wr_other _ _ _ _ (hk pm (List.mem_append.mpr (Or.inl hpm_mem))).1

end
section
open Hyperion.Slab

/-- `InsertHead` pushes a fresh node (not on the list, far from every
node on it) onto the free list, writing only the new node's two link
fields and the old head's `prev_offset` field. -/
theorem Hyperion.Slab.insert_spec (s : State) (o : Nat) (L : List Nat)
    (hfl : flSeg s.mem 0 s.freeHead L)
    (hfarL : L.Pairwise Far)
    (hfaro : ∀ x ∈ L, Far o x)
    (ho0 : o ≠ 0) :
    flSeg (insertHead s o).mem 0 (insertHead s o).freeHead (o :: L)
    ∧ (insertHead s o).freeHead = o
    ∧ (insertHead s o).firstBlock = s.firstBlock
    ∧ (∀ k : Nat, k ≠ o + 64 → k ≠ o + 72 → (∀ x ∈ L, k ≠ x + 72) →
        (insertHead s o).mem k = s.mem k) := by
  rcases L with _ | ⟨h, hs⟩
  · have hhead : s.freeHead = 0 := hfl
    have heq : insertHead s o =
        { s with freeHead := o, mem := wr (wr s.mem (o + 64) 0) (o + 72) 0 } := by
      simp [insertHead, hhead]
    rw [heq]
    dsimp only
    refine ⟨⟨rfl, ho0, by rw [wr_self], ?_⟩, rfl, rfl, ?_⟩
    · show wr (wr s.mem (o + 64) 0) (o + 72) 0 (o + 64) = 0
      rw [wr_other _ _ _ _ (by omega), wr_self]
    · intro k hk64 hk72 _
      rw [wr_other _ _ _ _ hk72, wr_other _ _ _ _ hk64]
  · obtain ⟨hc, hh0, hhp, hrest⟩ := hfl
    have hfar_oh : Far o h := hfaro h (by simp)
    have hfar_h_hs : ∀ x ∈ hs, Far h x := (List.pairwise_cons.mp hfarL).1
    have heq : insertHead s o =
        { s with freeHead := o, mem := wr (wr (wr s.mem (o + 64) s.freeHead) (o + 72) 0) (s.freeHead + 72) o } := by
      rw [insertHead]
      rw [if_pos (by rw [hc]; exact hh0)]
    rw [heq, hc]
    dsimp only
    have hm72 : wr (wr (wr s.mem (o + 64) h) (o + 72) 0) (h + 72) o (o + 72) = 0 := by
      rw [wr_other _ _ _ _ (by rcases hfar_oh with hf | hf <;> omega), wr_self]
    have hm64 : wr (wr (wr s.mem (o + 64) h) (o + 72) 0) (h + 72) o (o + 64) = h := by
      rw [wr_other _ _ _ _ (by rcases hfar_oh with hf | hf <;> omega),
        wr_other _ _ _ _ (by omega), wr_self]
    have hmh64 : wr (wr (wr s.mem (o + 64) h) (o + 72) 0) (h + 72) o (h + 64) = s.mem (h + 64) := by
      rw [wr_other _ _ _ _ (by omega),
        wr_other _ _ _ _ (by rcases hfar_oh with hf | hf <;> omega),
        wr_other _ _ _ _ (by rcases hfar_oh with hf | hf <;> omega)]
    refine ⟨⟨rfl, ho0, hm72, ?_⟩, rfl, rfl, ?_⟩
    · rw [hm64]
      refine ⟨rfl, hh0, by rw [wr_self], ?_⟩
      rw [hmh64]
      refine flSeg_frame hrest ?_
      intro x hx
      have hfo := hfaro x (by simp [hx])
      have hfh := hfar_h_hs x hx
      constructor
      · rw [wr_other _ _ _ _ (by rcases hfh with hf | hf <;> omega),
          wr_other _ _ _ _ (by rcases hfo with hf | hf <;> omega),
          wr_other _ _ _ _ (by rcases hfo with hf | hf <;> omega)]
      · rw [wr_other _ _ _ _ (by rcases hfh with hf | hf <;> omega),
          wr_other _ _ _ _ (by rcases hfo with hf | hf <;> omega),
          wr_other _ _ _ _ (by rcases hfo with hf | hf <;> omega)]
    · intro k hk64 hk72 hkL
      rw [wr_other _ _ _ _ (hkL h (by simp)), wr_other _ _ _ _ hk72,
        wr_other _ _ _ _ hk64]

end

namespace Hyperion.Slab

/-- Rebuild `blkOK` after writes that avoid the block's header and
footer cells. -/
theorem blkOK_frame {m m' : Nat → Nat} {b : Blk} (h : blkOK m b)
    (h1 : m' b.off = m b.off) (h2 : m' (b.off + b.size - 8) = m (b.off + b.size - 8)) :
    blkOK m' b := by
  obtain ⟨hs, hf, hftr, h128, hev⟩ := h
  exact ⟨by rw [h1]; exact hs, by rw [h1]; exact hf, by rw [h2, h1]; exact hftr, h128, hev⟩

theorem pairwise_of_forall_ne {α : Type} {R : α → α → Prop} {l : List α}
    (hnd : l.Nodup) (h : ∀ x ∈ l, ∀ y ∈ l, x ≠ y → R x y) : l.Pairwise R := by
  induction l with
  | nil => exact List.Pairwise.nil
  | cons a l ih =>
      refine List.Pairwise.cons ?_ (ih (List.nodup_cons.mp hnd).2 ?_)
      · intro b hb
        exact h a (by simp) b (by simp [hb])
          (fun he => (List.nodup_cons.mp hnd).1 (he ▸ hb))
      · intro x hx y hy
        exact h x (by simp [hx]) y (by simp [hy])

/-- Distinct blocks of a chain with the 128-byte minimum are far
apart. -/
theorem chain_far {E endo : Nat} {bs : List Blk} (hch : chainFrom E endo bs)
    (hsz : ∀ b ∈ bs, 128 ≤ b.size)
    {b1 b2 : Blk} (h1 : b1 ∈ bs) (h2 : b2 ∈ bs) (hne : b1.off ≠ b2.off) :
    Far b1.off b2.off := by
  have hbne : b1 ≠ b2 := fun he => hne (he ▸ rfl)
  have hdisj := pairwise_or (chainFrom_pairwise hch) h1 h2 hbne
  have hs1 := hsz b1 h1
  have hs2 := hsz b2 h2
  rcases hdisj with h | h
  · exact Or.inl (by omega)
  · exact Or.inr (by omega)

/-- The free list of a well-formed heap is pairwise far. -/
theorem HeapOK.pairwiseFarL {E endo : Nat} {s : State} {live : List Nat} {bs : List Blk}
    {L : List Nat} (h : HeapOK E endo s live bs L) : L.Pairwise Far := by
  refine pairwise_of_forall_ne h.nodupL ?_
  intro x hx y hy hne
  obtain ⟨b1, hb1, hb1o, _⟩ := h.memL x hx
  obtain ⟨b2, hb2, hb2o, _⟩ := h.memL y hy
  have := chain_far h.chain (fun b hb => (h.blocks b hb).2.2.2.1) hb1 hb2
    (by rw [hb1o, hb2o]; exact hne)
  rw [hb1o, hb2o] at this
  exact this

end Hyperion.Slab
section
open Hyperion.Slab

/-- `Init` on a region whose aligned part has even size at least 128
bytes and sits at a nonzero virtual offset establishes the heap
invariant, with one giant free block and no live allocations. -/
theorem Hyperion.Slab.init_inv (baseOff totalSize adj : Nat) (m0 : Nat → Nat)
    (h128 : 128 ≤ totalSize - adj) (heven : (totalSize - adj) % 2 = 0)
    (hE : 0 < baseOff + adj) :
    Inv (baseOff + adj) (baseOff + totalSize) (init baseOff totalSize adj m0) [] := by
  have hg : ¬ (totalSize - adj < 64 + 8) := by omega
  have hsz : getSize (setWord (totalSize - adj) true) = totalSize - adj :=
    getSize_setWord _ _ heven
  have heq : init baseOff totalSize adj m0 =
      { mem := wr (wr (wr (wr m0 (baseOff + adj) (setWord (totalSize - adj) true)) (baseOff + adj + (totalSize - adj) - 8) (setWord (totalSize - adj) true)) (baseOff + adj + 64) 0) (baseOff + adj + 72) 0,
        freeHead := baseOff + adj, firstBlock := baseOff + adj } := by
    simp [init, hg, updFooter, wr_self, hsz]
  rw [heq]
  have hE0 : baseOff + adj ≠ 0 := by omega
  have hhdr : (wr (wr (wr (wr m0 (baseOff + adj) (setWord (totalSize - adj) true)) (baseOff + adj + (totalSize - adj) - 8) (setWord (totalSize - adj) true)) (baseOff + adj + 64) 0) (baseOff + adj + 72) 0) (baseOff + adj) = setWord (totalSize - adj) true := by
    rw [wr_other _ _ _ _ (by omega), wr_other _ _ _ _ (by omega),
      wr_other _ _ _ _ (by omega), wr_self]
  have hftr : (wr (wr (wr (wr m0 (baseOff + adj) (setWord (totalSize - adj) true)) (baseOff + adj + (totalSize - adj) - 8) (setWord (totalSize - adj) true)) (baseOff + adj + 64) 0) (baseOff + adj + 72) 0) (baseOff + adj + (totalSize - adj) - 8) = setWord (totalSize - adj) true := by
    rw [wr_other _ _ _ _ (by omega), wr_other _ _ _ _ (by omega), wr_self]
  have h72 : (wr (wr (wr (wr m0 (baseOff + adj) (setWord (totalSize - adj) true)) (baseOff + adj + (totalSize - adj) - 8) (setWord (totalSize - adj) true)) (baseOff + adj + 64) 0) (baseOff + adj + 72) 0) (baseOff + adj + 72) = 0 := wr_self _ _ _
  have h64 : (wr (wr (wr (wr m0 (baseOff + adj) (setWord (totalSize - adj) true)) (baseOff + adj + (totalSize - adj) - 8) (setWord (totalSize - adj) true)) (baseOff + adj + 64) 0) (baseOff + adj + 72) 0) (baseOff + adj + 64) = 0 := by
    rw [wr_other _ _ _ _ (by omega), wr_self]
  have hb1 : getSize ((wr (wr (wr (wr m0 (baseOff + adj) (setWord (totalSize - adj) true)) (baseOff + adj + (totalSize - adj) - 8) (setWord (totalSize - adj) true)) (baseOff + adj + 64) 0) (baseOff + adj + 72) 0) (baseOff + adj)) = totalSize - adj := by
    rw [hhdr]; exact hsz
  have hb2 : isFree ((wr (wr (wr (wr m0 (baseOff + adj) (setWord (totalSize - adj) true)) (baseOff + adj + (totalSize - adj) - 8) (setWord (totalSize - adj) true)) (baseOff + adj + 64) 0) (baseOff + adj + 72) 0) (baseOff + adj)) = true := by
    rw [hhdr]; exact isFree_setWord _ _
  have hb3 : (wr (wr (wr (wr m0 (baseOff + adj) (setWord (totalSize - adj) true)) (baseOff + adj + (totalSize - adj) - 8) (setWord (totalSize - adj) true)) (baseOff + adj + 64) 0) (baseOff + adj + 72) 0) (baseOff + adj + (totalSize - adj) - 8) = (wr (wr (wr (wr m0 (baseOff + adj) (setWord (totalSize - adj) true)) (baseOff + adj + (totalSize - adj) - 8) (setWord (totalSize - adj) true)) (baseOff + adj + 64) 0) (baseOff + adj + 72) 0) (baseOff + adj) := by
    rw [hftr, hhdr]
  refine ⟨[⟨baseOff + adj, totalSize - adj, true⟩], [baseOff + adj], ?_⟩
  refine ⟨hE, rfl, ⟨rfl, by simp [chainFrom]; omega⟩, ?_, ?_, ?_, ?_, ?_, ?_, ?_, ?_⟩
  · intro b hb
    rcases List.mem_singleton.mp hb with rfl
    exact ⟨hb1, hb2, hb3, h128, heven⟩
  · exact ⟨rfl, hE0, h72, h64⟩
  · simp
  · intro o ho
    rcases List.mem_singleton.mp ho with rfl
    exact ⟨⟨baseOff + adj, totalSize - adj, true⟩, by simp, rfl, rfl⟩
  · intro b hb _
    rcases List.mem_singleton.mp hb with rfl
    simp
  · simp
  · intro q hq
    cases hq
  · simp

end
namespace Hyperion.Slab

/-- Intermediate well-formedness during `Free`: the block at `b` (size
`sizeB`) is marked free in memory but not yet linked into the free
list; everything else is as in `HeapOK`, with the chain split at the
block. -/
structure MidOK (E endo b sizeB : Nat) (s : State) (live : List Nat)
    (bs1 bs2 : List Blk) (L : List Nat) : Prop where
  epos : 0 < E
  firstB : s.firstBlock = E
  chain1 : chainFrom E b bs1
  chain2 : chainFrom (b + sizeB) endo bs2
  hsz128 : 128 ≤ sizeB
  hszeven : sizeB % 2 = 0
  hdrSz : getSize (s.mem b) = sizeB
  hdrFree : isFree (s.mem b) = true
  ftr : s.mem (b + sizeB - 8) = s.mem b
  blocks : ∀ x ∈ bs1 ++ bs2, blkOK s.mem x
  fl : flSeg s.mem 0 s.freeHead L
  nodupL : L.Nodup
  memL : ∀ o ∈ L, ∃ x ∈ bs1 ++ bs2, x.off = o ∧ x.free = true
  freeInL : ∀ x ∈ bs1 ++ bs2, x.free = true → x.off ∈ L
  noadj1 : List.Chain' (fun x y => x.free = false ∨ y.free = false) bs1
  noadj2 : List.Chain' (fun x y => x.free = false ∨ y.free = false) bs2
  liveOK : ∀ q ∈ live, ∃ x ∈ bs1 ++ bs2, q = x.off + 64 ∧ x.free = false
  nodupLive : live.Nodup

namespace MidOK

variable {E endo b sizeB : Nat} {s : State} {live : List Nat}
variable {bs1 bs2 : List Blk} {L : List Nat}

/-- Bounds of the two chain halves. -/
theorem bounds1 (h : MidOK E endo b sizeB s live bs1 bs2 L) :
    ∀ x ∈ bs1, E ≤ x.off ∧ x.off + x.size ≤ b :=
  chainFrom_bounds h.chain1

theorem bounds2 (h : MidOK E endo b sizeB s live bs1 bs2 L) :
    ∀ x ∈ bs2, b + sizeB ≤ x.off ∧ x.off + x.size ≤ endo :=
  chainFrom_bounds h.chain2

theorem blk128 (h : MidOK E endo b sizeB s live bs1 bs2 L) :
    ∀ x ∈ bs1 ++ bs2, 128 ≤ x.size := fun x hx => (h.blocks x hx).2.2.2.1

/-- Distinct blocks of the two halves are far apart. -/
theorem farBlocks (h : MidOK E endo b sizeB s live bs1 bs2 L) :
    ∀ x ∈ bs1 ++ bs2, ∀ y ∈ bs1 ++ bs2, x.off ≠ y.off → Far x.off y.off := by
  intro x hx y hy hne
  have h128x := h.blk128 x hx
  have h128y := h.blk128 y hy
  rcases List.mem_append.mp hx with hx1 | hx2 <;>
    rcases List.mem_append.mp hy with hy1 | hy2
  · exact chain_far h.chain1 (fun z hz => h.blk128 z (List.mem_append.mpr (Or.inl hz)))
      hx1 hy1 hne
  · have hbx := h.bounds1 x hx1
    have hby := h.bounds2 y hy2
    exact Or.inl (by omega)
  · have hbx := h.bounds2 x hx2
    have hby := h.bounds1 y hy1
    exact Or.inr (by omega)
  · exact chain_far h.chain2 (fun z hz => h.blk128 z (List.mem_append.mpr (Or.inr hz)))
      hx2 hy2 hne

/-- The free list is pairwise far. -/
theorem farL (h : MidOK E endo b sizeB s live bs1 bs2 L) : L.Pairwise Far := by
  refine pairwise_of_forall_ne h.nodupL ?_
  intro x hx y hy hne
  obtain ⟨b1, hb1, hb1o, _⟩ := h.memL x hx
  obtain ⟨b2, hb2, hb2o, _⟩ := h.memL y hy
  have := h.farBlocks b1 hb1 b2 hb2 (by rw [hb1o, hb2o]; exact hne)
  rwa [hb1o, hb2o] at this

/-- Every free-list member is far from the freed block. -/
theorem farbL (h : MidOK E endo b sizeB s live bs1 bs2 L) :
    ∀ o ∈ L, Far b o := by
  intro o ho
  obtain ⟨x, hx, hxo, _⟩ := h.memL o ho
  have h128x := h.blk128 x hx
  rcases List.mem_append.mp hx with hx1 | hx2
  · have := h.bounds1 x hx1
    exact Or.inr (by omega)
  · have := h.bounds2 x hx2
    have := h.hsz128
    exact Or.inl (by omega)

/-- The freed block is not on the free list. -/
theorem bNotInL (h : MidOK E endo b sizeB s live bs1 bs2 L) : b ∉ L := by
  intro hb
  have := h.farbL b hb
  rcases this with hf | hf <;> omega

end MidOK

/-- Marking a used block free (header and footer) turns `HeapOK` into
`MidOK` for that block, and removes its payload from the live set. -/
theorem mark_spec {E endo : Nat} {s : State} {live : List Nat} {bs1 bs2 : List Blk}
    {bp : Blk} {L : List Nat}
    (h : HeapOK E endo s live (bs1 ++ bp :: bs2) L) (hbpfree : bp.free = false) :
    MidOK E endo bp.off bp.size (freeMark s bp.off) (live.erase (bp.off + 64)) bs1 bs2 L := by
  obtain ⟨hsz, hfree, hftr, h128, heven⟩ := h.blocks bp (by simp)
  obtain ⟨k, hc1, hc2k⟩ := chainFrom_append.mp h.chain
  obtain ⟨hko, hc2⟩ := hc2k
  rw [← hko] at hc1 hc2
  have heq : freeMark s bp.off =
      { s with mem := wr (wr s.mem bp.off (setFreeBit (s.mem bp.off) true)) (bp.off + bp.size - 8) (setFreeBit (s.mem bp.off) true) } := by
    simp [freeMark, updFooter, wr_self, getSize_setFreeBit, hsz]
  rw [heq]
  have hb1bounds := chainFrom_bounds hc1
  have hb2bounds := chainFrom_bounds hc2
  have hball := fun x hx => h.blocks x (by
    rcases List.mem_append.mp hx with h1 | h2
    · exact List.mem_append.mpr (Or.inl h1)
    · exact List.mem_append.mpr (Or.inr (List.mem_cons.mpr (Or.inr h2))))
  have h128all : ∀ x ∈ bs1 ++ bs2, 128 ≤ x.size := fun x hx => (hball x hx).2.2.2.1
  -- reads on the marked memory
  have hmb : (wr (wr s.mem bp.off (setFreeBit (s.mem bp.off) true))
      (bp.off + bp.size - 8) (setFreeBit (s.mem bp.off) true)) bp.off
      = setFreeBit (s.mem bp.off) true := by
    rw [wr_other _ _ _ _ (by omega), wr_self]
  have hmf : (wr (wr s.mem bp.off (setFreeBit (s.mem bp.off) true))
      (bp.off + bp.size - 8) (setFreeBit (s.mem bp.off) true)) (bp.off + bp.size - 8)
      = setFreeBit (s.mem bp.off) true := wr_self _ _ _
  have hother : ∀ k2 : Nat, k2 ≠ bp.off → k2 ≠ bp.off + bp.size - 8 →
      (wr (wr s.mem bp.off (setFreeBit (s.mem bp.off) true))
        (bp.off + bp.size - 8) (setFreeBit (s.mem bp.off) true)) k2 = s.mem k2 := by
    intro k2 hk1 hk2
    rw [wr_other _ _ _ _ hk2, wr_other _ _ _ _ hk1]
  have hh1 : getSize ((wr (wr s.mem bp.off (setFreeBit (s.mem bp.off) true))
      (bp.off + bp.size - 8) (setFreeBit (s.mem bp.off) true)) bp.off) = bp.size := by
    rw [hmb, getSize_setFreeBit]; exact hsz
  have hh2 : isFree ((wr (wr s.mem bp.off (setFreeBit (s.mem bp.off) true))
      (bp.off + bp.size - 8) (setFreeBit (s.mem bp.off) true)) bp.off) = true := by
    rw [hmb]; exact isFree_setFreeBit _ _
  have hh3 : (wr (wr s.mem bp.off (setFreeBit (s.mem bp.off) true))
      (bp.off + bp.size - 8) (setFreeBit (s.mem bp.off) true)) (bp.off + bp.size - 8)
      = (wr (wr s.mem bp.off (setFreeBit (s.mem bp.off) true))
      (bp.off + bp.size - 8) (setFreeBit (s.mem bp.off) true)) bp.off := by
    rw [hmb, hmf]
  refine ⟨h.epos, h.firstB, hc1, hc2, h128, heven, hh1, hh2, hh3, ?_, ?_, h.nodupL,
    ?_, ?_, ?_, ?_, ?_, ?_⟩
  · -- other blocks keep their words
    intro x hx
    refine blkOK_frame (hball x hx) ?_ ?_ <;>
      [skip; skip] <;> apply hother <;>
      (rcases List.mem_append.mp hx with h1 | h2
       <;> [have hb := hb1bounds x h1; have hb := hb2bounds x h2]
       <;> have h128x := h128all x hx <;> omega)
  · -- free list untouched
    refine flSeg_frame h.fl ?_
    intro o ho
    obtain ⟨xo, hxo, hxoo, hxofree⟩ := h.memL o ho
    have hxne : xo ≠ bp := by
      intro he
      rw [he] at hxofree
      rw [hxofree] at hbpfree
      cases hbpfree
    have hxo2 : xo ∈ bs1 ++ bs2 := by
      rcases List.mem_append.mp hxo with h1 | h2
      · exact List.mem_append.mpr (Or.inl h1)
      · rcases List.mem_cons.mp h2 with he | h3
        · exact absurd he hxne
        · exact List.mem_append.mpr (Or.inr h3)
    have h128x := h128all xo hxo2
    constructor <;> apply hother <;>
      (rcases List.mem_append.mp hxo2 with h1 | h2
       <;> [have hb := hb1bounds xo h1; have hb := hb2bounds xo h2]
       <;> rw [← hxoo] <;> omega)
  · -- memL
    intro o ho
    obtain ⟨xo, hxo, hxoo, hxofree⟩ := h.memL o ho
    have hxne : xo ≠ bp := by
      intro he
      rw [he] at hxofree
      rw [hxofree] at hbpfree
      cases hbpfree
    refine ⟨xo, ?_, hxoo, hxofree⟩
    rcases List.mem_append.mp hxo with h1 | h2
    · exact List.mem_append.mpr (Or.inl h1)
    · rcases List.mem_cons.mp h2 with he | h3
      · exact absurd he hxne
      · exact List.mem_append.mpr (Or.inr h3)
  · -- freeInL
    intro x hx hxf
    refine h.freeInL x ?_ hxf
    rcases List.mem_append.mp hx with h1 | h2
    · exact List.mem_append.mpr (Or.inl h1)
    · exact List.mem_append.mpr (Or.inr (List.mem_cons.mpr (Or.inr h2)))
  · exact (List.chain'_append.mp h.noadj).1
  · exact (List.chain'_cons'.mp (List.chain'_append.mp h.noadj).2.1).2
  · -- live blocks survive
    intro q hq
    have hq' : q ≠ bp.off + 64 ∧ q ∈ live :=
      (List.Nodup.mem_erase_iff h.nodupLive).mp hq
    obtain ⟨x, hx, hxq, hxfree⟩ := h.liveOK q hq'.2
    have hxne : x ≠ bp := by
      intro he
      rw [he] at hxq
      exact hq'.1 hxq
    refine ⟨x, ?_, hxq, hxfree⟩
    rcases List.mem_append.mp hx with h1 | h2
    · exact List.mem_append.mpr (Or.inl h1)
    · rcases List.mem_cons.mp h2 with he | h3
      · exact absurd he hxne
      · exact List.mem_append.mpr (Or.inr h3)
  · exact List.Nodup.erase _ h.nodupLive

end Hyperion.Slab

namespace Hyperion.Slab.MidOK

variable {E endo b sizeB : Nat} {s : State} {live : List Nat}
variable {bs1 bs2 : List Blk} {L : List Nat}

/-- Distinct blocks of the two halves occupy disjoint ranges. -/
theorem disjBlocks (h : MidOK E endo b sizeB s live bs1 bs2 L) :
    ∀ x ∈ bs1 ++ bs2, ∀ y ∈ bs1 ++ bs2, x.off ≠ y.off →
      x.off + x.size ≤ y.off ∨ y.off + y.size ≤ x.off := by
  intro x hx y hy hne
  have hbne : x ≠ y := fun he => hne (he ▸ rfl)
  rcases List.mem_append.mp hx with hx1 | hx2 <;>
    rcases List.mem_append.mp hy with hy1 | hy2
  · exact pairwise_or (chainFrom_pairwise h.chain1) hx1 hy1 hbne
  · have hbx := h.bounds1 x hx1
    have hby := h.bounds2 y hy2
    have := h.hsz128
    exact Or.inl (by omega)
  · have hbx := h.bounds2 x hx2
    have hby := h.bounds1 y hy1
    have := h.hsz128
    exact Or.inr (by omega)
  · exact pairwise_or (chainFrom_pairwise h.chain2) hx2 hy2 hbne

/-- A block of the two halves is determined by its offset. -/
theorem off_inj (h : MidOK E endo b sizeB s live bs1 bs2 L)
    {x y : Blk} (hx : x ∈ bs1 ++ bs2) (hy : y ∈ bs1 ++ bs2)
    (ho : x.off = y.off) : x = y := by
  by_contra hne
  have h128x := h.blk128 x hx
  have h128y := h.blk128 y hy
  rcases List.mem_append.mp hx with hx1 | hx2 <;>
    rcases List.mem_append.mp hy with hy1 | hy2
  · have hd := pairwise_or (chainFrom_pairwise h.chain1) hx1 hy1 hne
    rcases hd with hd | hd <;> omega
  · have hbx := h.bounds1 x hx1
    have hby := h.bounds2 y hy2
    have := h.hsz128
    omega
  · have hbx := h.bounds2 x hx2
    have hby := h.bounds1 y hy1
    have := h.hsz128
    omega
  · have hd := pairwise_or (chainFrom_pairwise h.chain2) hx2 hy2 hne
    rcases hd with hd | hd <;> omega

/-- A block's header and footer cells never coincide with any free-list
node cell. -/
theorem cellsSafe (h : MidOK E endo b sizeB s live bs1 bs2 L) :
    ∀ x ∈ bs1 ++ bs2, ∀ o ∈ L,
      x.off ≠ o + 64 ∧ x.off ≠ o + 72
      ∧ x.off + x.size - 8 ≠ o + 64 ∧ x.off + x.size - 8 ≠ o + 72 := by
  intro x hx o ho
  obtain ⟨xo, hxo, hxoo, _⟩ := h.memL o ho
  have h128x := h.blk128 x hx
  have h128o := h.blk128 xo hxo
  rcases eq_or_ne x.off o with he | hne
  · have hxeq : x = xo := h.off_inj hx hxo (by rw [he, hxoo])
    subst hxeq
    omega
  · have hd := h.disjBlocks x hx xo hxo (by rw [hxoo]; exact hne)
    rw [hxoo] at hd
    rcases hd with hd | hd <;> omega

end Hyperion.Slab.MidOK
namespace Hyperion.Slab

theorem Far.symm {x y : Nat} (h : Far x y) : Far y x := h.elim Or.inr Or.inl

/-- Coalescing right preserves the intermediate invariant: if the block
after the freed one is free it is unlinked and absorbed; in every case
the block following the (possibly grown) freed block is used or
absent. -/
theorem right_spec (baseOff totalSize E b sizeB : Nat) (s : State)
    (live : List Nat) (bs1 bs2 : List Blk) (L : List Nat)
    (hm : MidOK E (totalSize + baseOff) b sizeB s live bs1 bs2 L) :
    ∃ sizeB2 bs2' L', MidOK E (totalSize + baseOff) b sizeB2
        (freeRight baseOff totalSize s b) live bs1 bs2' L'
      ∧ (∀ x : Blk, bs2'.head? = some x → x.free = false) := by
  rcases bs2 with _ | ⟨bn, bs2x⟩
  · -- the freed block reaches the end of the heap: the bound check fails
    have hend : b + sizeB = totalSize + baseOff := hm.chain2
    have heq : freeRight baseOff totalSize s b = s := by
      simp [freeRight, hm.hdrSz, hend]
    refine ⟨sizeB, [], L, ?_, ?_⟩
    · rw [heq]; exact hm
    · intro x hx; cases hx
  · obtain ⟨hbno, hc2x⟩ := hm.chain2
    obtain ⟨hbnsz, hbnfree, hbnftr, hbn128, hbneven⟩ := hm.blocks bn (by simp)
    have hbnend : bn.off + bn.size ≤ totalSize + baseOff := (hm.bounds2 bn (by simp)).2
    have hguard : b + sizeB < totalSize + baseOff := by omega
    cases hbf : bn.free with
    | false =>
        have hnotfree : isFree (s.mem (b + sizeB)) = false := by
          rw [← hbno, hbnfree, hbf]
        have heq : freeRight baseOff totalSize s b = s := by
          simp [freeRight, hm.hdrSz, hguard, hnotfree]
        refine ⟨sizeB, bn :: bs2x, L, ?_, ?_⟩
        · rw [heq]; exact hm
        · intro x hx
          simp only [List.head?_cons, Option.some.injEq] at hx
          rw [← hx]; exact hbf
    | true =>
        have hfreeRead : isFree (s.mem (b + sizeB)) = true := by
          rw [← hbno, hbnfree, hbf]
        have hnbL : b + sizeB ∈ L := by
          have := hm.freeInL bn (by simp) hbf
          rwa [hbno] at this
        obtain ⟨L1, L2, hLdec⟩ := List.append_of_mem hnbL
        have hfl' : flSeg s.mem 0 s.freeHead (L1 ++ (b + sizeB) :: L2) := by
          rw [← hLdec]; exact hm.fl
        have hfar' : (L1 ++ (b + sizeB) :: L2).Pairwise Far := by
          rw [← hLdec]; exact hm.farL
        have hrem := remove_spec s (b + sizeB) L1 L2 hfl' hfar'
        have hsRb : (removeFromFreeList s (b + sizeB)).mem b = s.mem b := by
          refine hrem.2.2 b ?_
          intro x hx
          have hfx : Far b x := hm.farbL x (by rw [hLdec]; exact hx)
          exact ⟨by rcases hfx with hf | hf <;> omega,
            by rcases hfx with hf | hf <;> omega⟩
        have hfarLnb : ∀ x ∈ L, x ≠ b + sizeB → Far (b + sizeB) x := by
          intro x hx hne
          rcases pairwise_or hm.farL hnbL hx (fun he => hne he.symm) with hf | hf
          · exact hf
          · exact hf.symm
        have hsRnb : (removeFromFreeList s (b + sizeB)).mem (b + sizeB)
            = s.mem (b + sizeB) := by
          refine hrem.2.2 (b + sizeB) ?_
          intro x hx'
          have hx : x ∈ L := by rw [hLdec]; exact hx'
          rcases eq_or_ne x (b + sizeB) with he | hne2
          · subst he; exact ⟨by omega, by omega⟩
          · have hf := hfarLnb x hx hne2
            exact ⟨by rcases hf with hf | hf <;> omega,
              by rcases hf with hf | hf <;> omega⟩
        have hevenNew : (sizeB + bn.size) % 2 = 0 := by
          have := hm.hszeven
          omega
        have hnbsz : getSize (s.mem (b + sizeB)) = bn.size := by
          rw [← hbno]; exact hbnsz
        have heq : freeRight baseOff totalSize s b =
            { removeFromFreeList s (b + sizeB) with mem := wr (wr (removeFromFreeList s (b + sizeB)).mem b (setSizeWord ((removeFromFreeList s (b + sizeB)).mem b) (sizeB + bn.size))) (b + (sizeB + bn.size) - 8) (setSizeWord ((removeFromFreeList s (b + sizeB)).mem b) (sizeB + bn.size)) } := by
          simp only [freeRight, hm.hdrSz]
          rw [if_pos hguard, if_pos hfreeRead]
          simp only [hsRb, hm.hdrSz, hsRnb, hnbsz, updFooter, wr_self,
            getSize_setSizeWord _ _ hevenNew]
        rw [heq]
        refine ⟨sizeB + bn.size, bs2x, L1 ++ L2, ?_, ?_⟩
        · -- the merged block and the shortened structures satisfy MidOK
          have hb2xb := chainFrom_bounds hc2x
          have hFb : (wr (wr (removeFromFreeList s (b + sizeB)).mem b (setSizeWord ((removeFromFreeList s (b + sizeB)).mem b) (sizeB + bn.size))) (b + (sizeB + bn.size) - 8) (setSizeWord ((removeFromFreeList s (b + sizeB)).mem b) (sizeB + bn.size))) b = setSizeWord ((removeFromFreeList s (b + sizeB)).mem b) (sizeB + bn.size) := by
            have h1 := hm.hsz128
            rw [wr_other _ _ _ _ (by omega), wr_self]
          have hFf : (wr (wr (removeFromFreeList s (b + sizeB)).mem b (setSizeWord ((removeFromFreeList s (b + sizeB)).mem b) (sizeB + bn.size))) (b + (sizeB + bn.size) - 8) (setSizeWord ((removeFromFreeList s (b + sizeB)).mem b) (sizeB + bn.size))) (b + (sizeB + bn.size) - 8) = setSizeWord ((removeFromFreeList s (b + sizeB)).mem b) (sizeB + bn.size) := wr_self _ _ _
          have hframe : ∀ k : Nat, k ≠ b → k ≠ b + (sizeB + bn.size) - 8 →
              (∀ x ∈ L, k ≠ x + 64 ∧ k ≠ x + 72) →
              (wr (wr (removeFromFreeList s (b + sizeB)).mem b (setSizeWord ((removeFromFreeList s (b + sizeB)).mem b) (sizeB + bn.size))) (b + (sizeB + bn.size) - 8) (setSizeWord ((removeFromFreeList s (b + sizeB)).mem b) (sizeB + bn.size))) k = s.mem k := by
            intro k h1 h2 h3
            rw [wr_other _ _ _ _ h2, wr_other _ _ _ _ h1]
            exact hrem.2.2 k (fun x hx => h3 x (by rw [hLdec]; exact hx))
          have hframeR : ∀ k : Nat, k ≠ b → k ≠ b + (sizeB + bn.size) - 8 →
              (wr (wr (removeFromFreeList s (b + sizeB)).mem b (setSizeWord ((removeFromFreeList s (b + sizeB)).mem b) (sizeB + bn.size))) (b + (sizeB + bn.size) - 8) (setSizeWord ((removeFromFreeList s (b + sizeB)).mem b) (sizeB + bn.size))) k = (removeFromFreeList s (b + sizeB)).mem k := by
            intro k h1 h2
            rw [wr_other _ _ _ _ h2, wr_other _ _ _ _ h1]
          have hndL : (L1 ++ (b + sizeB) :: L2).Nodup := by
            rw [← hLdec]; exact hm.nodupL
          have hnbL1 : (b + sizeB) ∉ L1 := by
            intro hmem
            exact (List.nodup_append.mp hndL).2.2 hmem (by simp)
          have hnbL2 : (b + sizeB) ∉ L2 :=
            (List.nodup_cons.mp (List.nodup_append.mp hndL).2.1).1
          have hmemL1L2 : ∀ o ∈ L1 ++ L2, o ∈ L ∧ o ≠ b + sizeB := by
            intro o ho
            rcases List.mem_append.mp ho with h1 | h2
            · exact ⟨by rw [hLdec]; exact List.mem_append.mpr (Or.inl h1),
                fun he => hnbL1 (he ▸ h1)⟩
            · exact ⟨by rw [hLdec]; exact List.mem_append.mpr (Or.inr (List.mem_cons.mpr (Or.inr h2))),
                fun he => hnbL2 (he ▸ h2)⟩
          have hlift : ∀ x ∈ bs1 ++ bs2x, x ∈ bs1 ++ bn :: bs2x := by
            intro x hx
            rcases List.mem_append.mp hx with h1 | h2
            · exact List.mem_append.mpr (Or.inl h1)
            · exact List.mem_append.mpr (Or.inr (List.mem_cons.mpr (Or.inr h2)))
          have hbn_not : bn ∉ bs1 ++ bs2x := by
            intro hmem
            rcases List.mem_append.mp hmem with h1 | h2
            · have := hm.bounds1 bn h1
              omega
            · have := hb2xb bn h2
              omega
          have hdropbn : ∀ x ∈ bs1 ++ bn :: bs2x, x.off ≠ b + sizeB → x ∈ bs1 ++ bs2x := by
            intro x hx hne
            rcases List.mem_append.mp hx with h1 | h2
            · exact List.mem_append.mpr (Or.inl h1)
            · rcases List.mem_cons.mp h2 with he | h3
              · exact absurd (he ▸ hbno) hne
              · exact List.mem_append.mpr (Or.inr h3)
          have hblockFromL : ∀ o ∈ L1 ++ L2, ∃ xo ∈ bs1 ++ bs2x, xo.off = o ∧ xo.free = true := by
            intro o ho
            obtain ⟨hoL, hone⟩ := hmemL1L2 o ho
            obtain ⟨xo, hxo, hxoo, hxof⟩ := hm.memL o hoL
            exact ⟨xo, hdropbn xo hxo (by rw [hxoo]; exact hone), hxoo, hxof⟩
          have hcellsb : ∀ x ∈ bs1 ++ bs2x,
              x.off ≠ b ∧ x.off ≠ b + (sizeB + bn.size) - 8
              ∧ x.off + x.size - 8 ≠ b ∧ x.off + x.size - 8 ≠ b + (sizeB + bn.size) - 8 := by
            intro x hx
            have h128x := hm.blk128 x (hlift x hx)
            have hsb := hm.hsz128
            rcases List.mem_append.mp hx with h1 | h2
            · have := hm.bounds1 x h1
              omega
            · have := hb2xb x h2
              omega
          have hH1 : getSize ((wr (wr (removeFromFreeList s (b + sizeB)).mem b (setSizeWord ((removeFromFreeList s (b + sizeB)).mem b) (sizeB + bn.size))) (b + (sizeB + bn.size) - 8) (setSizeWord ((removeFromFreeList s (b + sizeB)).mem b) (sizeB + bn.size))) b) = sizeB + bn.size := by
            rw [hFb]
            exact getSize_setSizeWord _ _ hevenNew
          have hH2 : isFree ((wr (wr (removeFromFreeList s (b + sizeB)).mem b (setSizeWord ((removeFromFreeList s (b + sizeB)).mem b) (sizeB + bn.size))) (b + (sizeB + bn.size) - 8) (setSizeWord ((removeFromFreeList s (b + sizeB)).mem b) (sizeB + bn.size))) b) = true := by
            rw [hFb, isFree_setSizeWord, hsRb]
            exact hm.hdrFree
          have hH3 : (wr (wr (removeFromFreeList s (b + sizeB)).mem b (setSizeWord ((removeFromFreeList s (b + sizeB)).mem b) (sizeB + bn.size))) (b + (sizeB + bn.size) - 8) (setSizeWord ((removeFromFreeList s (b + sizeB)).mem b) (sizeB + bn.size))) (b + (sizeB + bn.size) - 8) = (wr (wr (removeFromFreeList s (b + sizeB)).mem b (setSizeWord ((removeFromFreeList s (b + sizeB)).mem b) (sizeB + bn.size))) (b + (sizeB + bn.size) - 8) (setSizeWord ((removeFromFreeList s (b + sizeB)).mem b) (sizeB + bn.size))) b := by
            rw [hFf, hFb]
          refine ⟨hm.epos, hrem.2.1.trans hm.firstB, hm.chain1, ?_, by omega, hevenNew,
            hH1, hH2, hH3, ?_, ?_, ?_, hblockFromL, ?_, hm.noadj1,
            (List.chain'_cons'.mp hm.noadj2).2, ?_, hm.nodupLive⟩
          · rw [show b + (sizeB + bn.size) = b + sizeB + bn.size by omega]
            exact hc2x
          · intro x hx
            have hcells := hcellsb x hx
            have hnode := fun o ho => hm.cellsSafe x (hlift x hx) o ho
            refine blkOK_frame (hm.blocks x (hlift x hx)) ?_ ?_
            · exact hframe x.off hcells.1 hcells.2.1
                (fun o ho => ⟨(hnode o ho).1, (hnode o ho).2.1⟩)
            · exact hframe (x.off + x.size - 8) hcells.2.2.1 hcells.2.2.2
                (fun o ho => ⟨(hnode o ho).2.2.1, (hnode o ho).2.2.2⟩)
          · refine flSeg_frame hrem.1 ?_
            intro o ho
            obtain ⟨xo, hxo, hxoo, _⟩ := hblockFromL o ho
            have h128o := hm.blk128 xo (hlift xo hxo)
            have hsb := hm.hsz128
            rcases List.mem_append.mp hxo with h1 | h2
            · have := hm.bounds1 xo h1
              exact ⟨hframeR (o + 64) (by omega) (by omega),
                hframeR (o + 72) (by omega) (by omega)⟩
            · have := hb2xb xo h2
              exact ⟨hframeR (o + 64) (by omega) (by omega),
                hframeR (o + 72) (by omega) (by omega)⟩
          · exact hndL.sublist
              (List.Sublist.append (List.Sublist.refl L1) (List.sublist_cons_self _ L2))
          · intro x hx hxf
            have hoffne : x.off ≠ b + sizeB := by
              intro he
              have hxeq : x = bn := hm.off_inj (hlift x hx) (by simp) (by rw [he, hbno])
              exact hbn_not (hxeq ▸ hx)
            have hmem := hm.freeInL x (hlift x hx) hxf
            rw [hLdec] at hmem
            rcases List.mem_append.mp hmem with h1 | h2
            · exact List.mem_append.mpr (Or.inl h1)
            · rcases List.mem_cons.mp h2 with he | h3
              · exact absurd he hoffne
              · exact List.mem_append.mpr (Or.inr h3)
          · intro q hq
            obtain ⟨x, hx, hxq, hxfree⟩ := hm.liveOK q hq
            have hxne : x ≠ bn := by
              intro he
              rw [he, hbf] at hxfree
              cases hxfree
            refine ⟨x, ?_, hxq, hxfree⟩
            rcases List.mem_append.mp hx with h1 | h2
            · exact List.mem_append.mpr (Or.inl h1)
            · rcases List.mem_cons.mp h2 with he | h3
              · exact absurd he hxne
              · exact List.mem_append.mpr (Or.inr h3)
        · intro x hx
          have := (List.chain'_cons'.mp hm.noadj2).1 x hx
          rcases this with h1 | h1
          · rw [hbf] at h1
            cases h1
          · exact h1

end Hyperion.Slab
namespace Hyperion.Slab

/-- Pushing the freed block on the free list restores the full heap
invariant, provided its two address neighbours (when they exist) are
used. -/
theorem insert_case {E endo b sizeB : Nat} {s : State} {live : List Nat}
    {bs1 bs2 : List Blk} {L : List Nat}
    (hm : MidOK E endo b sizeB s live bs1 bs2 L)
    (hru : ∀ x : Blk, bs2.head? = some x → x.free = false)
    (hlast : ∀ x : Blk, bs1.getLast? = some x → x.free = false) :
    Inv E endo (insertHead s b) live := by
  have hEb : E ≤ b := chainFrom_le hm.chain1
  have hb0 : b ≠ 0 := by have := hm.epos; omega
  have hins := insert_spec s b L hm.fl hm.farL hm.farbL hb0
  have hinsf := hins.2.2.2
  have hb128 := hm.hsz128
  have hfarbL := hm.farbL
  have hIb : (insertHead s b).mem b = s.mem b := by
    refine hinsf b (by omega) (by omega) ?_
    intro x hx
    rcases hfarbL x hx with hf | hf <;> omega
  have hIf : (insertHead s b).mem (b + sizeB - 8) = s.mem (b + sizeB - 8) := by
    refine hinsf (b + sizeB - 8) (by omega) (by omega) ?_
    intro x hx
    obtain ⟨xo, hxo, hxoo, _⟩ := hm.memL x hx
    have h128x := hm.blk128 xo hxo
    rcases List.mem_append.mp hxo with h1 | h2
    · have := hm.bounds1 xo h1
      rw [← hxoo]; omega
    · have := hm.bounds2 xo h2
      rw [← hxoo]; omega
  refine ⟨bs1 ++ ⟨b, sizeB, true⟩ :: bs2, b :: L, hm.epos,
    hins.2.2.1.trans hm.firstB, ?_, ?_, hins.1, ?_, ?_, ?_, ?_, ?_, hm.nodupLive⟩
  · exact chainFrom_append.mpr ⟨b, hm.chain1, rfl, hm.chain2⟩
  · intro x hx
    rcases List.mem_append.mp hx with h1 | h2
    · have hb := hm.bounds1 x h1
      have h128x := hm.blk128 x (List.mem_append.mpr (Or.inl h1))
      have hcells := fun o ho => hm.cellsSafe x (List.mem_append.mpr (Or.inl h1)) o ho
      refine blkOK_frame (hm.blocks x (List.mem_append.mpr (Or.inl h1))) ?_ ?_
      · exact hinsf x.off (by omega) (by omega) (fun o ho => (hcells o ho).2.1)
      · exact hinsf (x.off + x.size - 8) (by omega) (by omega)
          (fun o ho => (hcells o ho).2.2.2)
    · rcases List.mem_cons.mp h2 with rfl | h3
      · refine ⟨?_, ?_, ?_, hm.hsz128, hm.hszeven⟩
        · dsimp only
          rw [hIb]; exact hm.hdrSz
        · dsimp only
          rw [hIb]; exact hm.hdrFree
        · dsimp only
          rw [hIf, hIb]; exact hm.ftr
      · have hb := hm.bounds2 x h3
        have h128x := hm.blk128 x (List.mem_append.mpr (Or.inr h3))
        have hcells := fun o ho => hm.cellsSafe x (List.mem_append.mpr (Or.inr h3)) o ho
        refine blkOK_frame (hm.blocks x (List.mem_append.mpr (Or.inr h3))) ?_ ?_
        · exact hinsf x.off (by omega) (by omega) (fun o ho => (hcells o ho).2.1)
        · exact hinsf (x.off + x.size - 8) (by omega) (by omega)
            (fun o ho => (hcells o ho).2.2.2)
  · exact List.nodup_cons.mpr ⟨hm.bNotInL, hm.nodupL⟩
  · intro o ho
    rcases List.mem_cons.mp ho with he | hoL
    · exact ⟨⟨b, sizeB, true⟩, List.mem_append.mpr (Or.inr (by simp)), he.symm, rfl⟩
    · obtain ⟨xo, hxo, hxoo, hxof⟩ := hm.memL o hoL
      refine ⟨xo, ?_, hxoo, hxof⟩
      rcases List.mem_append.mp hxo with h1 | h2
      · exact List.mem_append.mpr (Or.inl h1)
      · exact List.mem_append.mpr (Or.inr (List.mem_cons.mpr (Or.inr h2)))
  · intro x hx hxf
    rcases List.mem_append.mp hx with h1 | h2
    · exact List.mem_cons.mpr (Or.inr (hm.freeInL x (List.mem_append.mpr (Or.inl h1)) hxf))
    · rcases List.mem_cons.mp h2 with rfl | h3
      · exact List.mem_cons.mpr (Or.inl rfl)
      · exact List.mem_cons.mpr (Or.inr (hm.freeInL x (List.mem_append.mpr (Or.inr h3)) hxf))
  · refine List.chain'_append.mpr ⟨hm.noadj1, ?_, ?_⟩
    · exact List.chain'_cons'.mpr ⟨fun y hy => Or.inr (hru y hy), hm.noadj2⟩
    · intro x hx y hy
      simp only [List.head?_cons, Option.mem_def, Option.some.injEq] at hy
      subst hy
      exact Or.inl (hlast x hx)
  · intro q hq
    obtain ⟨x, hx, hxq, hxfree⟩ := hm.liveOK q hq
    refine ⟨x, ?_, hxq, hxfree⟩
    rcases List.mem_append.mp hx with h1 | h2
    · exact List.mem_append.mpr (Or.inl h1)
    · exact List.mem_append.mpr (Or.inr (List.mem_cons.mpr (Or.inr h2)))

end Hyperion.Slab

namespace Hyperion.Slab

/-- The left phase of `Free` restores the full invariant: merge into a
free left neighbour (which is already on the list and simply grows), or
push the block on the list head. -/
theorem left_spec {E endo b sizeB : Nat} {s : State} {live : List Nat}
    {bs1 bs2 : List Blk} {L : List Nat}
    (hm : MidOK E endo b sizeB s live bs1 bs2 L)
    (hru : ∀ x : Blk, bs2.head? = some x → x.free = false) :
    Inv E endo (freeLeft s b) live := by
  rcases bs1.eq_nil_or_concat with hnil | ⟨bs1x, bl, hconc⟩
  · -- the freed block is the first block: no left neighbour
    have hEb : E = b := by
      have h := hm.chain1
      rw [hnil] at h
      exact h
    have heq : freeLeft s b = insertHead s b := by
      simp [freeLeft, hm.firstB, hEb]
    rw [heq]
    refine insert_case hm hru ?_
    rw [hnil]
    intro x hx
    cases hx
  · rw [List.concat_eq_append] at hconc
    have hch := hm.chain1
    rw [hconc] at hch
    obtain ⟨k, hc1x, hcbl⟩ := chainFrom_append.mp hch
    obtain ⟨hblo, hblend⟩ := hcbl
    rw [← hblo] at hc1x
    have hblmem : bl ∈ bs1 ++ bs2 := by
      rw [hconc]
      exact List.mem_append.mpr (Or.inl (List.mem_append.mpr (Or.inr (by simp))))
    obtain ⟨hblsz, hblfree, hblftr, hbl128, hbleven⟩ := hm.blocks bl hblmem
    have hblb : bl.off + bl.size = b := by
      rw [hblo]; exact hblend
    have hEbl : E ≤ bl.off := (chainFrom_bounds hch bl (by
      exact List.mem_append.mpr (Or.inr (by simp)))).1
    have hguard : E < b := by omega
    have hpf : s.mem (b - 8) = s.mem bl.off := by
      rw [show b - 8 = bl.off + bl.size - 8 by omega]
      exact hblftr
    cases hblf : bl.free with
    | false =>
        have hnot : isFree (s.mem (b - 8)) = false := by
          rw [hpf, hblfree, hblf]
        have heq : freeLeft s b = insertHead s b := by
          simp [freeLeft, hm.firstB, hguard, hnot]
        rw [heq]
        refine insert_case hm hru ?_
        intro x hx
        rw [hconc, List.getLast?_concat] at hx
        cases hx
        exact hblf
    | true =>
        -- the left neighbour is free: grow it over the freed block
        have hfree : isFree (s.mem (b - 8)) = true := by
          rw [hpf, hblfree, hblf]
        have hpfsz : getSize (s.mem (b - 8)) = bl.size := by
          rw [hpf]; exact hblsz
        have hprevoff : b - bl.size = bl.off := by omega
        have hevenb : (bl.size + sizeB) % 2 = 0 := by
          have := hm.hszeven
          omega
        have hb128 := hm.hsz128
        have heq : freeLeft s b =
            { s with mem := wr (wr s.mem bl.off (setSizeWord (s.mem bl.off) (bl.size + sizeB))) (bl.off + (bl.size + sizeB) - 8) (setSizeWord (s.mem bl.off) (bl.size + sizeB)) } := by
          simp only [freeLeft, hm.firstB]
          rw [if_pos hguard, if_pos hfree]
          simp only [hpfsz, hprevoff, hm.hdrSz, hblsz, updFooter, wr_self,
            getSize_setSizeWord _ _ hevenb]
        rw [heq]
        have hFb2 : (wr (wr s.mem bl.off (setSizeWord (s.mem bl.off) (bl.size + sizeB))) (bl.off + (bl.size + sizeB) - 8) (setSizeWord (s.mem bl.off) (bl.size + sizeB))) bl.off = setSizeWord (s.mem bl.off) (bl.size + sizeB) := by
          rw [wr_other _ _ _ _ (by omega), wr_self]
        have hFf2 : (wr (wr s.mem bl.off (setSizeWord (s.mem bl.off) (bl.size + sizeB))) (bl.off + (bl.size + sizeB) - 8) (setSizeWord (s.mem bl.off) (bl.size + sizeB))) (bl.off + (bl.size + sizeB) - 8) = setSizeWord (s.mem bl.off) (bl.size + sizeB) := wr_self _ _ _
        have hframe2 : ∀ k2 : Nat, k2 ≠ bl.off → k2 ≠ bl.off + (bl.size + sizeB) - 8 →
            (wr (wr s.mem bl.off (setSizeWord (s.mem bl.off) (bl.size + sizeB))) (bl.off + (bl.size + sizeB) - 8) (setSizeWord (s.mem bl.off) (bl.size + sizeB))) k2 = s.mem k2 := by
          intro k2 h1 h2
          rw [wr_other _ _ _ _ h2, wr_other _ _ _ _ h1]
        have hH1 : getSize ((wr (wr s.mem bl.off (setSizeWord (s.mem bl.off) (bl.size + sizeB))) (bl.off + (bl.size + sizeB) - 8) (setSizeWord (s.mem bl.off) (bl.size + sizeB))) bl.off) = bl.size + sizeB := by
          rw [hFb2]
          exact getSize_setSizeWord _ _ hevenb
        have hH2 : isFree ((wr (wr s.mem bl.off (setSizeWord (s.mem bl.off) (bl.size + sizeB))) (bl.off + (bl.size + sizeB) - 8) (setSizeWord (s.mem bl.off) (bl.size + sizeB))) bl.off) = true := by
          rw [hFb2, isFree_setSizeWord, hblfree, hblf]
        have hH3 : (wr (wr s.mem bl.off (setSizeWord (s.mem bl.off) (bl.size + sizeB))) (bl.off + (bl.size + sizeB) - 8) (setSizeWord (s.mem bl.off) (bl.size + sizeB))) (bl.off + (bl.size + sizeB) - 8) = (wr (wr s.mem bl.off (setSizeWord (s.mem bl.off) (bl.size + sizeB))) (bl.off + (bl.size + sizeB) - 8) (setSizeWord (s.mem bl.off) (bl.size + sizeB))) bl.off := by
          rw [hFf2, hFb2]
        have hbd1x := chainFrom_bounds hc1x
        have hlift1x : ∀ x ∈ bs1x, x ∈ bs1 ++ bs2 := by
          intro x hx
          exact List.mem_append.mpr (Or.inl (by
            rw [hconc]; exact List.mem_append.mpr (Or.inl hx)))
        have hlift2 : ∀ x ∈ bs2, x ∈ bs1 ++ bs2 := fun x hx =>
          List.mem_append.mpr (Or.inr hx)
        refine ⟨bs1x ++ ⟨bl.off, bl.size + sizeB, true⟩ :: bs2, L, hm.epos, hm.firstB,
          ?_, ?_, ?_, hm.nodupL, ?_, ?_, ?_, ?_, hm.nodupLive⟩
        · refine chainFrom_append.mpr ⟨bl.off, hc1x, rfl, ?_⟩
          rw [show bl.off + (bl.size + sizeB) = b + sizeB by omega]
          exact hm.chain2
        · intro x hx
          rcases List.mem_append.mp hx with h1 | h2
          · have hbx := hbd1x x h1
            have h128x := hm.blk128 x (hlift1x x h1)
            refine blkOK_frame (hm.blocks x (hlift1x x h1)) ?_ ?_
            · exact hframe2 x.off (by omega) (by omega)
            · exact hframe2 (x.off + x.size - 8) (by omega) (by omega)
          · rcases List.mem_cons.mp h2 with he | h3
            · rw [he]
              refine ⟨?_, ?_, ?_, by dsimp only; omega, by dsimp only; exact hevenb⟩
              · dsimp only
                exact hH1
              · dsimp only
                exact hH2
              · dsimp only
                exact hH3
            · have hbx := hm.bounds2 x h3
              have h128x := hm.blk128 x (hlift2 x h3)
              refine blkOK_frame (hm.blocks x (hlift2 x h3)) ?_ ?_
              · exact hframe2 x.off (by omega) (by omega)
              · exact hframe2 (x.off + x.size - 8) (by omega) (by omega)
        · refine flSeg_frame hm.fl ?_
          intro o ho
          have hcs := hm.cellsSafe bl hblmem o ho
          obtain ⟨xo, hxo, hxoo, _⟩ := hm.memL o ho
          have h128o := hm.blk128 xo hxo
          have honb : o + 64 ≠ bl.off + (bl.size + sizeB) - 8
              ∧ o + 72 ≠ bl.off + (bl.size + sizeB) - 8 := by
            rw [← hxoo]
            rcases List.mem_append.mp hxo with h1 | h2
            · have := hm.bounds1 xo h1
              constructor <;> omega
            · have := hm.bounds2 xo h2
              constructor <;> omega
          exact ⟨hframe2 (o + 64) (Ne.symm hcs.1) honb.1,
            hframe2 (o + 72) (Ne.symm hcs.2.1) honb.2⟩
        · intro o ho
          obtain ⟨xo, hxo, hxoo, hxof⟩ := hm.memL o ho
          rcases List.mem_append.mp hxo with h1 | h2
          · rw [hconc] at h1
            rcases List.mem_append.mp h1 with h1x | h1bl
            · exact ⟨xo, List.mem_append.mpr (Or.inl h1x), hxoo, hxof⟩
            · have he := List.mem_singleton.mp h1bl
              rw [he] at hxoo
              exact ⟨⟨bl.off, bl.size + sizeB, true⟩,
                List.mem_append.mpr (Or.inr (by simp)), hxoo, rfl⟩
          · exact ⟨xo, List.mem_append.mpr (Or.inr (List.mem_cons.mpr (Or.inr h2))),
              hxoo, hxof⟩
        · intro x hx hxf
          rcases List.mem_append.mp hx with h1 | h2
          · exact hm.freeInL x (hlift1x x h1) hxf
          · rcases List.mem_cons.mp h2 with he | h3
            · have hin := hm.freeInL bl hblmem hblf
              rw [he]
              exact hin
            · exact hm.freeInL x (hlift2 x h3) hxf
        · have hsplit := List.chain'_append.mp
            (show List.Chain' (fun x y => x.free = false ∨ y.free = false) (bs1x ++ [bl])
              from hconc ▸ hm.noadj1)
          refine List.chain'_append.mpr ⟨hsplit.1, ?_, ?_⟩
          · exact List.chain'_cons'.mpr ⟨fun y hy => Or.inr (hru y hy), hm.noadj2⟩
          · intro x hx y hy
            simp only [List.head?_cons, Option.mem_def, Option.some.injEq] at hy
            subst hy
            have hxbl := hsplit.2.2 x hx bl (by simp)
            rcases hxbl with h1 | h1
            · exact Or.inl h1
            · rw [hblf] at h1
              cases h1
        · intro q hq
          obtain ⟨x, hx, hxq, hxfree⟩ := hm.liveOK q hq
          rcases List.mem_append.mp hx with h1 | h2
          · rw [hconc] at h1
            rcases List.mem_append.mp h1 with h1x | h1bl
            · exact ⟨x, List.mem_append.mpr (Or.inl h1x), hxq, hxfree⟩
            · have he := List.mem_singleton.mp h1bl
              rw [he, hblf] at hxfree
              cases hxfree
          · exact ⟨x, List.mem_append.mpr (Or.inr (List.mem_cons.mpr (Or.inr h2))),
              hxq, hxfree⟩

end Hyperion.Slab
namespace Hyperion.Slab

/-- `Free` on a live payload offset preserves the heap invariant:
the guard checks pass (the offset is nonzero and its block is used),
the block is marked free, the right neighbour is merged if free, and
the left phase either merges left or inserts — in every case the
well-formed-heap abstraction is restored with the payload removed
from the live set. -/
theorem free_preserves {baseOff totalSize E : Nat} {s : State} {live : List Nat}
    (p : Nat) (hInv : Inv E (totalSize + baseOff) s live) (hp : p ∈ live) :
    Inv E (totalSize + baseOff) (freeOp baseOff totalSize s p) (live.erase p) := by
  obtain ⟨bs, L, h⟩ := hInv
  obtain ⟨bp, hbp, hpq, hbpfree⟩ := h.liveOK p hp
  obtain ⟨bs1, bs2, hbs⟩ := List.append_of_mem hbp
  rw [hbs] at h
  have hp0 : ¬ p = 0 := by omega
  have hpoff : p - 64 = bp.off := by omega
  have hne : isFree (s.mem (p - 64)) = false := by
    rw [hpoff]
    have hbf := (h.blocks bp (by simp)).2.1
    rw [hbf, hbpfree]
  have heq : freeOp baseOff totalSize s p
      = freeLeft (freeRight baseOff totalSize (freeMark s (p - 64)) (p - 64)) (p - 64) := by
    simp [freeOp, hp0, hne]
  rw [heq, hpoff]
  have hmid := mark_spec h hbpfree
  rw [← hpq] at hmid
  obtain ⟨sizeB2, bs2', L', hm', hru⟩ :=
    right_spec baseOff totalSize E bp.off bp.size _ _ bs1 bs2 L hmid
  exact left_spec hm' hru

end Hyperion.Slab
namespace Hyperion.Slab

/-- Distinct blocks of a well-formed heap occupy disjoint ranges. -/
theorem HeapOK.disj {E endo : Nat} {s : State} {live : List Nat} {bs : List Blk}
    {L : List Nat} (h : HeapOK E endo s live bs L) :
    ∀ x ∈ bs, ∀ y ∈ bs, x ≠ y → x.off + x.size ≤ y.off ∨ y.off + y.size ≤ x.off :=
  fun x hx y hy hne => pairwise_or (chainFrom_pairwise h.chain) hx hy hne

/-- Blocks of a well-formed heap are determined by their offset. -/
theorem HeapOK.offInj {E endo : Nat} {s : State} {live : List Nat} {bs : List Blk}
    {L : List Nat} (h : HeapOK E endo s live bs L) :
    ∀ x ∈ bs, ∀ y ∈ bs, x.off = y.off → x = y := by
  intro x hx y hy he
  by_contra hne
  have hd := h.disj x hx y hy hne
  have h1 := (h.blocks x hx).2.2.2.1
  have h2 := (h.blocks y hy).2.2.2.1
  rcases hd with hd | hd <;> omega

/-- Header and footer cells of any block avoid the free-list node
fields (`o + 64`, `o + 72`) of every listed offset. -/
theorem HeapOK.cellSafe {E endo : Nat} {s : State} {live : List Nat} {bs : List Blk}
    {L : List Nat} (h : HeapOK E endo s live bs L) :
    ∀ x ∈ bs, ∀ o ∈ L, ∀ k, (k = x.off ∨ k = x.off + x.size - 8) →
      k ≠ o + 64 ∧ k ≠ o + 72 := by
  intro x hx o ho k hk
  obtain ⟨y, hy, hyo, _⟩ := h.memL o ho
  have h1 := (h.blocks x hx).2.2.2.1
  have h2 := (h.blocks y hy).2.2.2.1
  by_cases hxy : x = y
  · subst hxy
    rcases hk with hk | hk <;> constructor <;> omega
  · have hd := h.disj x hx y hy hxy
    rcases hk with hk | hk <;> constructor <;> (rcases hd with hd | hd <;> omega)

/-- The payload offset of a free block is never a live payload. -/
theorem HeapOK.payload_fresh {E endo : Nat} {s : State} {live : List Nat}
    {bs : List Blk} {L : List Nat} (h : HeapOK E endo s live bs L)
    {bc : Blk} (hbc : bc ∈ bs) (hf : bc.free = true) : bc.off + 64 ∉ live := by
  intro hin
  obtain ⟨x, hx, hq, hxf⟩ := h.liveOK _ hin
  have hoff : x.off = bc.off := by omega
  have hxbc := h.offInj x hx bc hbc hoff
  rw [hxbc, hf] at hxf
  cases hxf

/-- Extending a doubly-linked prefix by its exit node. -/
theorem flSegTo_snoc {m : Nat → Nat} {p c pe ce : Nat} {L : List Nat}
    (h : flSegTo m p c pe ce L) (hce : ce ≠ 0) (hprev : m (ce + 72) = pe) :
    flSegTo m p c ce (m (ce + 64)) (L ++ [ce]) := by
  induction L generalizing p c with
  | nil =>
      obtain ⟨hp, hc⟩ := h
      subst hp
      subst hc
      exact ⟨rfl, hce, hprev, rfl, rfl⟩
  | cons o rest ih =>
      obtain ⟨hc, ho, hpr, hrest⟩ := h
      exact ⟨hc, ho, hpr, ih hrest⟩

end Hyperion.Slab
namespace Hyperion.Slab

/-- The whole-block branch of `Allocate`: unlinking a free block and
marking it used (header and footer) preserves well-formedness, adds
its payload to the live set, and flips its abstract free flag. -/
theorem whole_spec {E endo : Nat} {s : State} {live : List Nat}
    {bs1 bs2 : List Blk} {bc : Blk} {L1 LS2 : List Nat}
    (h : HeapOK E endo s live (bs1 ++ bc :: bs2) (L1 ++ bc.off :: LS2))
    (hbcf : bc.free = true) :
    HeapOK E endo (allocWhole s bc.off) ((bc.off + 64) :: live)
      (bs1 ++ ⟨bc.off, bc.size, false⟩ :: bs2) (L1 ++ LS2) := by
  have hbc : bc ∈ bs1 ++ bc :: bs2 := by simp
  obtain ⟨hbcsz, hbcfree, hbcftr, hbc128, hbceven⟩ := h.blocks bc hbc
  obtain ⟨k, hc1, hko, hc2⟩ := chainFrom_append.mp h.chain
  rw [← hko] at hc1 hc2
  have hbd1 := chainFrom_bounds hc1
  have hbd2 := chainFrom_bounds hc2
  obtain ⟨hfl1, hfb1, hframe1⟩ := remove_spec s bc.off L1 LS2 h.fl h.pairwiseFarL
  have hsafeH : ∀ x ∈ L1 ++ bc.off :: LS2, bc.off ≠ x + 64 ∧ bc.off ≠ x + 72 :=
    fun x hx => h.cellSafe bc hbc x hx bc.off (Or.inl rfl)
  have hsafeF : ∀ x ∈ L1 ++ bc.off :: LS2,
      bc.off + bc.size - 8 ≠ x + 64 ∧ bc.off + bc.size - 8 ≠ x + 72 :=
    fun x hx => h.cellSafe bc hbc x hx _ (Or.inr rfl)
  have hrdH : (removeFromFreeList s bc.off).mem bc.off = s.mem bc.off :=
    hframe1 bc.off hsafeH
  have heq : allocWhole s bc.off =
      { removeFromFreeList s bc.off with mem := wr (wr (removeFromFreeList s bc.off).mem bc.off (setFreeBit (s.mem bc.off) false)) (bc.off + bc.size - 8) (setFreeBit (s.mem bc.off) false) } := by
    simp only [allocWhole, updFooter, wr_self, hrdH, getSize_setFreeBit, hbcsz]
  rw [heq]
  have hFH : (wr (wr (removeFromFreeList s bc.off).mem bc.off (setFreeBit (s.mem bc.off) false)) (bc.off + bc.size - 8) (setFreeBit (s.mem bc.off) false)) bc.off = setFreeBit (s.mem bc.off) false := by
    rw [wr_other _ _ _ _ (by omega), wr_self]
  have hFF : (wr (wr (removeFromFreeList s bc.off).mem bc.off (setFreeBit (s.mem bc.off) false)) (bc.off + bc.size - 8) (setFreeBit (s.mem bc.off) false)) (bc.off + bc.size - 8) = setFreeBit (s.mem bc.off) false := wr_self _ _ _
  have hFframe : ∀ k2 : Nat, k2 ≠ bc.off → k2 ≠ bc.off + bc.size - 8 →
      (wr (wr (removeFromFreeList s bc.off).mem bc.off (setFreeBit (s.mem bc.off) false)) (bc.off + bc.size - 8) (setFreeBit (s.mem bc.off) false)) k2
        = (removeFromFreeList s bc.off).mem k2 := by
    intro k2 h1 h2
    rw [wr_other _ _ _ _ h2, wr_other _ _ _ _ h1]
  have hFfull : ∀ k2 : Nat, k2 ≠ bc.off → k2 ≠ bc.off + bc.size - 8 →
      (∀ x ∈ L1 ++ bc.off :: LS2, k2 ≠ x + 64 ∧ k2 ≠ x + 72) →
      (wr (wr (removeFromFreeList s bc.off).mem bc.off (setFreeBit (s.mem bc.off) false)) (bc.off + bc.size - 8) (setFreeBit (s.mem bc.off) false)) k2 = s.mem k2 := by
    intro k2 h1 h2 h3
    rw [hFframe k2 h1 h2]
    exact hframe1 k2 h3
  have hmem1 : ∀ x ∈ bs1, x ∈ bs1 ++ bc :: bs2 := fun x hx =>
    List.mem_append.mpr (Or.inl hx)
  have hmem2 : ∀ x ∈ bs2, x ∈ bs1 ++ bc :: bs2 := fun x hx =>
    List.mem_append.mpr (Or.inr (List.mem_cons.mpr (Or.inr hx)))
  have hmemL : ∀ x ∈ L1 ++ LS2, x ∈ L1 ++ bc.off :: LS2 := by
    intro x hx
    rcases List.mem_append.mp hx with h1 | h2
    · exact List.mem_append.mpr (Or.inl h1)
    · exact List.mem_append.mpr (Or.inr (List.mem_cons.mpr (Or.inr h2)))
  have hnodup3 := List.nodup_append.mp h.nodupL
  have hcL1 : bc.off ∉ L1 := fun hin => (hnodup3.2.2 hin) (by simp)
  have hcLS2 : bc.off ∉ LS2 := (List.nodup_cons.mp hnodup3.2.1).1
  refine ⟨h.epos, hfb1.trans h.firstB, ?_, ?_, ?_, ?_, ?_, ?_, ?_, ?_, ?_⟩
  · exact chainFrom_append.mpr ⟨bc.off, hc1, rfl, hc2⟩
  · intro x hx
    rcases List.mem_append.mp hx with h1 | h2
    · have hbx := hbd1 x h1
      have h128x := (h.blocks x (hmem1 x h1)).2.2.2.1
      refine blkOK_frame (h.blocks x (hmem1 x h1)) ?_ ?_
      · exact hFfull x.off (by omega) (by omega)
          (fun o ho => h.cellSafe x (hmem1 x h1) o ho x.off (Or.inl rfl))
      · exact hFfull (x.off + x.size - 8) (by omega) (by omega)
          (fun o ho => h.cellSafe x (hmem1 x h1) o ho _ (Or.inr rfl))
    · rcases List.mem_cons.mp h2 with he | h3
      · rw [he]
        refine ⟨?_, ?_, ?_, by dsimp only; omega, by dsimp only; exact hbceven⟩
        · dsimp only
          rw [hFH, getSize_setFreeBit]
          exact hbcsz
        · dsimp only
          rw [hFH, isFree_setFreeBit]
        · dsimp only
          rw [hFF, hFH]
      · have hbx := hbd2 x h3
        have h128x := (h.blocks x (hmem2 x h3)).2.2.2.1
        refine blkOK_frame (h.blocks x (hmem2 x h3)) ?_ ?_
        · exact hFfull x.off (by omega) (by omega)
            (fun o ho => h.cellSafe x (hmem2 x h3) o ho x.off (Or.inl rfl))
        · exact hFfull (x.off + x.size - 8) (by omega) (by omega)
            (fun o ho => h.cellSafe x (hmem2 x h3) o ho _ (Or.inr rfl))
  · refine flSeg_frame hfl1 ?_
    intro x hx
    have hxL := hmemL x hx
    have hH := h.cellSafe bc hbc x hxL bc.off (Or.inl rfl)
    have hF := h.cellSafe bc hbc x hxL _ (Or.inr rfl)
    exact ⟨hFframe _ (Ne.symm hH.1) (Ne.symm hF.1),
      hFframe _ (Ne.symm hH.2) (Ne.symm hF.2)⟩
  · exact List.Nodup.sublist
      (List.Sublist.append_left (List.sublist_cons_self bc.off LS2) L1) h.nodupL
  · intro o ho
    have hoc : o ≠ bc.off := by
      rcases List.mem_append.mp ho with h1 | h2
      · exact fun he => hcL1 (he ▸ h1)
      · exact fun he => hcLS2 (he ▸ h2)
    obtain ⟨x, hx, hxo, hxf⟩ := h.memL o (hmemL o ho)
    rcases List.mem_append.mp hx with h1 | h2
    · exact ⟨x, List.mem_append.mpr (Or.inl h1), hxo, hxf⟩
    · rcases List.mem_cons.mp h2 with he | h3
      · exact absurd (he ▸ hxo).symm hoc
      · exact ⟨x, List.mem_append.mpr (Or.inr (List.mem_cons.mpr (Or.inr h3))),
          hxo, hxf⟩
  · intro x hx hxf
    rcases List.mem_append.mp hx with h1 | h2
    · have hbx := hbd1 x h1
      have h128x := (h.blocks x (hmem1 x h1)).2.2.2.1
      have hin := h.freeInL x (hmem1 x h1) hxf
      rcases List.mem_append.mp hin with ha | hb
      · exact List.mem_append.mpr (Or.inl ha)
      · rcases List.mem_cons.mp hb with he | h3
        · omega
        · exact List.mem_append.mpr (Or.inr h3)
    · rcases List.mem_cons.mp h2 with he | h3
      · rw [he] at hxf
        cases hxf
      · have hbx := hbd2 x h3
        have h128x := (h.blocks x (hmem2 x h3)).2.2.2.1
        have hin := h.freeInL x (hmem2 x h3) hxf
        rcases List.mem_append.mp hin with ha | hb
        · exact List.mem_append.mpr (Or.inl ha)
        · rcases List.mem_cons.mp hb with he | h3b
          · omega
          · exact List.mem_append.mpr (Or.inr h3b)
  · have hsp := List.chain'_append.mp h.noadj
    have hcons := List.chain'_cons'.mp hsp.2.1
    refine List.chain'_append.mpr ⟨hsp.1, ?_, ?_⟩
    · exact List.chain'_cons'.mpr ⟨fun y hy => Or.inl rfl, hcons.2⟩
    · intro x hx y hy
      simp only [List.head?_cons, Option.mem_def, Option.some.injEq] at hy
      subst hy
      exact Or.inr rfl
  · intro q hq
    rcases List.mem_cons.mp hq with he | hq2
    · exact ⟨⟨bc.off, bc.size, false⟩, List.mem_append.mpr (Or.inr (by simp)),
        he, rfl⟩
    · obtain ⟨x, hx, hxq, hxf⟩ := h.liveOK q hq2
      rcases List.mem_append.mp hx with h1 | h2
      · exact ⟨x, List.mem_append.mpr (Or.inl h1), hxq, hxf⟩
      · rcases List.mem_cons.mp h2 with he | h3
        · rw [he, hbcf] at hxf
          cases hxf
        · exact ⟨x, List.mem_append.mpr (Or.inr (List.mem_cons.mpr (Or.inr h3))),
            hxq, hxf⟩
  · exact List.nodup_cons.mpr ⟨h.payload_fresh hbc hbcf, h.nodupLive⟩

end Hyperion.Slab
namespace Hyperion.Slab

/-- Reconstruction of the heap invariant after the split branch of
`Allocate`, given the shape of the resulting state: the found free
block is replaced by a used block of `required` bytes followed by a
free remainder, and the free list holds the remainder's offset in the
old node's position. -/
theorem splitHeapOK {E endo required remaining : Nat} {s : State} {live : List Nat}
    {bs1 bs2 : List Blk} {bc : Blk} {L1 LS2 : List Nat}
    (h : HeapOK E endo s live (bs1 ++ bc :: bs2) (L1 ++ bc.off :: LS2))
    (hbcf : bc.free = true)
    (hsz : bc.size = required + remaining)
    (hreq128 : 128 ≤ required) (hreqeven : required % 2 = 0)
    (hrem : 136 ≤ remaining)
    (s' : State)
    (hfb : s'.firstBlock = s.firstBlock)
    (hframe : ∀ k, (k < bc.off ∨ bc.off + bc.size ≤ k) →
        (∀ x ∈ L1 ++ bc.off :: LS2, k ≠ x + 64 ∧ k ≠ x + 72) → s'.mem k = s.mem k)
    (hhdr1 : s'.mem bc.off = setWord required false)
    (hftr1 : s'.mem (bc.off + required - 8) = setWord required false)
    (hhdr2 : s'.mem (bc.off + required) = setWord remaining true)
    (hftr2 : s'.mem (bc.off + required + remaining - 8) = setWord remaining true)
    (hfl' : flSeg s'.mem 0 s'.freeHead (L1 ++ (bc.off + required) :: LS2)) :
    HeapOK E endo s' ((bc.off + 64) :: live)
      (bs1 ++ ⟨bc.off, required, false⟩ :: ⟨bc.off + required, remaining, true⟩ :: bs2)
      (L1 ++ (bc.off + required) :: LS2) := by
  have hbc : bc ∈ bs1 ++ bc :: bs2 := by simp
  obtain ⟨hbcsz, hbcfree, hbcftr, hbc128, hbceven⟩ := h.blocks bc hbc
  have hremeven : remaining % 2 = 0 := by omega
  obtain ⟨k, hc1, hko, hc2⟩ := chainFrom_append.mp h.chain
  rw [← hko] at hc1 hc2
  have hbd1 := chainFrom_bounds hc1
  have hbd2 := chainFrom_bounds hc2
  have hmem1 : ∀ x ∈ bs1, x ∈ bs1 ++ bc :: bs2 := fun x hx =>
    List.mem_append.mpr (Or.inl hx)
  have hmem2 : ∀ x ∈ bs2, x ∈ bs1 ++ bc :: bs2 := fun x hx =>
    List.mem_append.mpr (Or.inr (List.mem_cons.mpr (Or.inr hx)))
  have hnodup3 := List.nodup_append.mp h.nodupL
  have hcL1 : bc.off ∉ L1 := fun hin => (hnodup3.2.2 hin) (by simp)
  have hcLS2 : bc.off ∉ LS2 := (List.nodup_cons.mp hnodup3.2.1).1
  have hnbNotL : ∀ o ∈ L1 ++ bc.off :: LS2, o ≠ bc.off + required := by
    intro o ho he
    obtain ⟨y, hy, hyo, _⟩ := h.memL o ho
    have h128y := (h.blocks y hy).2.2.2.1
    rcases List.mem_append.mp hy with h1 | h2
    · have := hbd1 y h1
      omega
    · rcases List.mem_cons.mp h2 with heb | h3
      · rw [heb] at hyo
        omega
      · have := hbd2 y h3
        omega
  have hc2' : chainFrom (bc.off + required + remaining) endo bs2 := by
    have hx := hc2
    rw [show bc.off + bc.size = bc.off + required + remaining by omega] at hx
    exact hx
  refine ⟨h.epos, hfb.trans h.firstB, ?_, ?_, hfl', ?_, ?_, ?_, ?_, ?_, ?_⟩
  · exact chainFrom_append.mpr ⟨bc.off, hc1, rfl, rfl, hc2'⟩
  · intro x hx
    rcases List.mem_append.mp hx with h1 | h2
    · have hbx := hbd1 x h1
      have h128x := (h.blocks x (hmem1 x h1)).2.2.2.1
      refine blkOK_frame (h.blocks x (hmem1 x h1)) ?_ ?_
      · exact hframe x.off (Or.inl (by omega))
          (fun o ho => h.cellSafe x (hmem1 x h1) o ho x.off (Or.inl rfl))
      · exact hframe (x.off + x.size - 8) (Or.inl (by omega))
          (fun o ho => h.cellSafe x (hmem1 x h1) o ho _ (Or.inr rfl))
    · rcases List.mem_cons.mp h2 with he | h3
      · rw [he]
        refine ⟨?_, ?_, ?_, by dsimp only; omega, by dsimp only; exact hreqeven⟩
        · dsimp only
          rw [hhdr1]
          exact getSize_setWord required false hreqeven
        · dsimp only
          rw [hhdr1, isFree_setWord]
        · dsimp only
          rw [hftr1, hhdr1]
      · rcases List.mem_cons.mp h3 with he | h4
        · rw [he]
          refine ⟨?_, ?_, ?_, by dsimp only; omega, by dsimp only; exact hremeven⟩
          · dsimp only
            rw [hhdr2]
            exact getSize_setWord remaining true hremeven
          · dsimp only
            rw [hhdr2, isFree_setWord]
          · dsimp only
            rw [hftr2, hhdr2]
        · have hbx := hbd2 x h4
          have h128x := (h.blocks x (hmem2 x h4)).2.2.2.1
          refine blkOK_frame (h.blocks x (hmem2 x h4)) ?_ ?_
          · exact hframe x.off (Or.inr (by omega))
              (fun o ho => h.cellSafe x (hmem2 x h4) o ho x.off (Or.inl rfl))
          · exact hframe (x.off + x.size - 8) (Or.inr (by omega))
              (fun o ho => h.cellSafe x (hmem2 x h4) o ho _ (Or.inr rfl))
  · refine List.nodup_append.mpr ⟨hnodup3.1,
      List.nodup_cons.mpr ⟨?_, (List.nodup_cons.mp hnodup3.2.1).2⟩, ?_⟩
    · intro hin
      exact hnbNotL _ (List.mem_append.mpr (Or.inr (List.mem_cons.mpr (Or.inr hin)))) rfl
    · intro a ha hain
      rcases List.mem_cons.mp hain with he | h2
      · exact hnbNotL a (List.mem_append.mpr (Or.inl ha)) he
      · exact hnodup3.2.2 ha (List.mem_cons.mpr (Or.inr h2))
  · intro o ho
    rcases List.mem_append.mp ho with h1 | h2
    · have hoc : o ≠ bc.off := fun he => hcL1 (he ▸ h1)
      obtain ⟨y, hy, hyo, hyf⟩ := h.memL o (List.mem_append.mpr (Or.inl h1))
      rcases List.mem_append.mp hy with hy1 | hy2
      · exact ⟨y, List.mem_append.mpr (Or.inl hy1), hyo, hyf⟩
      · rcases List.mem_cons.mp hy2 with he | hy3
        · exact absurd (he ▸ hyo).symm hoc
        · exact ⟨y, List.mem_append.mpr (Or.inr (List.mem_cons.mpr (Or.inr
            (List.mem_cons.mpr (Or.inr hy3))))), hyo, hyf⟩
    · rcases List.mem_cons.mp h2 with he | h3
      · exact ⟨⟨bc.off + required, remaining, true⟩,
          List.mem_append.mpr (Or.inr (List.mem_cons.mpr (Or.inr
            (List.mem_cons.mpr (Or.inl rfl))))), he.symm, rfl⟩
      · have hoc : o ≠ bc.off := fun he => hcLS2 (he ▸ h3)
        obtain ⟨y, hy, hyo, hyf⟩ := h.memL o
          (List.mem_append.mpr (Or.inr (List.mem_cons.mpr (Or.inr h3))))
        rcases List.mem_append.mp hy with hy1 | hy2
        · exact ⟨y, List.mem_append.mpr (Or.inl hy1), hyo, hyf⟩
        · rcases List.mem_cons.mp hy2 with he | hy3
          · exact absurd (he ▸ hyo).symm hoc
          · exact ⟨y, List.mem_append.mpr (Or.inr (List.mem_cons.mpr (Or.inr
              (List.mem_cons.mpr (Or.inr hy3))))), hyo, hyf⟩
  · intro x hx hxf
    rcases List.mem_append.mp hx with h1 | h2
    · have hbx := hbd1 x h1
      have h128x := (h.blocks x (hmem1 x h1)).2.2.2.1
      have hin := h.freeInL x (hmem1 x h1) hxf
      rcases List.mem_append.mp hin with ha | hb
      · exact List.mem_append.mpr (Or.inl ha)
      · rcases List.mem_cons.mp hb with he | h3
        · omega
        · exact List.mem_append.mpr (Or.inr (List.mem_cons.mpr (Or.inr h3)))
    · rcases List.mem_cons.mp h2 with he | h3
      · rw [he] at hxf
        simp at hxf
      · rcases List.mem_cons.mp h3 with he | h4
        · rw [he]
          exact List.mem_append.mpr (Or.inr (List.mem_cons.mpr (Or.inl rfl)))
        · have hbx := hbd2 x h4
          have h128x := (h.blocks x (hmem2 x h4)).2.2.2.1
          have hin := h.freeInL x (hmem2 x h4) hxf
          rcases List.mem_append.mp hin with ha | hb
          · exact List.mem_append.mpr (Or.inl ha)
          · rcases List.mem_cons.mp hb with he | h3b
            · omega
            · exact List.mem_append.mpr (Or.inr (List.mem_cons.mpr (Or.inr h3b)))
  · have hsp := List.chain'_append.mp h.noadj
    have hcons := List.chain'_cons'.mp hsp.2.1
    have hhd : ∀ y, bs2.head? = some y → y.free = false := by
      intro y hy
      rcases hcons.1 y hy with h1 | h1
      · rw [hbcf] at h1
        cases h1
      · exact h1
    refine List.chain'_append.mpr ⟨hsp.1, ?_, ?_⟩
    · refine List.chain'_cons'.mpr ⟨fun y hy => Or.inl rfl, ?_⟩
      exact List.chain'_cons'.mpr ⟨fun y hy => Or.inr (hhd y hy), hcons.2⟩
    · intro x hx y hy
      simp only [List.head?_cons, Option.mem_def, Option.some.injEq] at hy
      subst hy
      exact Or.inr rfl
  · intro q hq
    rcases List.mem_cons.mp hq with he | hq2
    · exact ⟨⟨bc.off, required, false⟩,
        List.mem_append.mpr (Or.inr (List.mem_cons.mpr (Or.inl rfl))), he, rfl⟩
    · obtain ⟨x, hx, hxq, hxf⟩ := h.liveOK q hq2
      rcases List.mem_append.mp hx with h1 | h2
      · exact ⟨x, List.mem_append.mpr (Or.inl h1), hxq, hxf⟩
      · rcases List.mem_cons.mp h2 with he | h3
        · rw [he, hbcf] at hxf
          cases hxf
        · exact ⟨x, List.mem_append.mpr (Or.inr (List.mem_cons.mpr (Or.inr
            (List.mem_cons.mpr (Or.inr h3))))), hxq, hxf⟩
  · exact List.nodup_cons.mpr ⟨h.payload_fresh hbc hbcf, h.nodupLive⟩

end Hyperion.Slab
namespace Hyperion.Slab

set_option maxHeartbeats 1000000

/-- The split branch of `Allocate` preserves the heap invariant: the
found free block is cut into a used block of `required` bytes and a
free remainder whose node replaces the old one in the free list
(head, predecessor and successor links redirected as in the source). -/
theorem split_spec {E endo required remaining pm : Nat} {s : State} {live : List Nat}
    {bs1 bs2 : List Blk} {bc : Blk} {L1 LS2 : List Nat}
    (h : HeapOK E endo s live (bs1 ++ bc :: bs2) (L1 ++ bc.off :: LS2))
    (hbcf : bc.free = true)
    (hreq128 : 128 ≤ required) (hreqeven : required % 2 = 0)
    (hreml : remaining = bc.size - required)
    (hrem : 136 ≤ remaining)
    (hreqle : required ≤ bc.size)
    (hseg1 : flSegTo s.mem 0 s.freeHead pm bc.off L1)
    (hseg2 : flSeg s.mem bc.off (s.mem (bc.off + 64)) LS2)
    (hprevP : s.mem (bc.off + 72) = pm) :
    Inv E endo (allocSplit s bc.off required remaining) ((bc.off + 64) :: live) := by
  have hbc : bc ∈ bs1 ++ bc :: bs2 := by simp
  obtain ⟨hbcsz, hbcfree, hbcftr, hbc128, hbceven⟩ := h.blocks bc hbc
  have hsz : bc.size = required + remaining := by omega
  have hremeven : remaining % 2 = 0 := by omega
  obtain ⟨k, hc1, hko, hc2⟩ := chainFrom_append.mp h.chain
  rw [← hko] at hc1 hc2
  have hbd1 := chainFrom_bounds hc1
  have hbd2 := chainFrom_bounds hc2
  have hnodup3 := List.nodup_append.mp h.nodupL
  have hcL1 : bc.off ∉ L1 := fun hin => (hnodup3.2.2 hin) (by simp)
  have hcLS2 : bc.off ∉ LS2 := (List.nodup_cons.mp hnodup3.2.1).1
  have hnotIn : ∀ o ∈ L1 ++ bc.off :: LS2, ∀ d, 0 < d → d < bc.size →
      o ≠ bc.off + d := by
    intro o ho d hd1 hd2 he
    obtain ⟨y, hy, hyo, _⟩ := h.memL o ho
    have h128y := (h.blocks y hy).2.2.2.1
    rcases List.mem_append.mp hy with h1 | h2
    · have := hbd1 y h1
      omega
    · rcases List.mem_cons.mp h2 with heb | h3
      · rw [heb] at hyo
        omega
      · have := hbd2 y h3
        omega
  have hfieldOut : ∀ x ∈ L1 ++ bc.off :: LS2, x ≠ bc.off →
      x + 72 < bc.off ∨ bc.off + bc.size ≤ x := by
    intro x hx hxbc
    obtain ⟨y, hy, hyo, _⟩ := h.memL x hx
    have h128y := (h.blocks y hy).2.2.2.1
    rcases List.mem_append.mp hy with h1 | h2
    · have := hbd1 y h1
      omega
    · rcases List.mem_cons.mp h2 with heb | h3
      · rw [heb] at hyo
        omega
      · have := hbd2 y h3
        omega
  have hFarMem : ∀ x ∈ L1 ++ bc.off :: LS2, ∀ y ∈ L1 ++ bc.off :: LS2, x ≠ y →
      Far x y := fun x hx y hy hne => (pairwise_or h.pairwiseFarL hx hy hne).elim id Far.symm
  have hT5r72 : (wr (wr (wr (wr s.mem bc.off (setWord required false)) (bc.off + required - 8) (setWord required false)) (bc.off + required) (setWord remaining true)) (bc.off + required + remaining - 8) (setWord remaining true)) (bc.off + 72) = pm := by
    rw [wr_other _ _ _ _ (by omega), wr_other _ _ _ _ (by omega),
      wr_other _ _ _ _ (by omega), wr_other _ _ _ _ (by omega)]
    exact hprevP
  have hT5r64 : (wr (wr (wr (wr (wr s.mem bc.off (setWord required false)) (bc.off + required - 8) (setWord required false)) (bc.off + required) (setWord remaining true)) (bc.off + required + remaining - 8) (setWord remaining true)) (bc.off + required + 72) pm) (bc.off + 64) = s.mem (bc.off + 64) := by
    rw [wr_other _ _ _ _ (by omega), wr_other _ _ _ _ (by omega),
      wr_other _ _ _ _ (by omega), wr_other _ _ _ _ (by omega),
      wr_other _ _ _ _ (by omega)]
  have hT6r72 : ∀ v, (wr (wr (wr (wr (wr (wr s.mem bc.off (setWord required false)) (bc.off + required - 8) (setWord required false)) (bc.off + required) (setWord remaining true)) (bc.off + required + remaining - 8) (setWord remaining true)) (bc.off + required + 72) pm) (bc.off + required + 64) v) (bc.off + required + 72) = pm := by
    intro v
    rw [wr_other _ _ _ _ (by omega), wr_self]
  have hT6r64 : ∀ v, (wr (wr (wr (wr (wr (wr s.mem bc.off (setWord required false)) (bc.off + required - 8) (setWord required false)) (bc.off + required) (setWord remaining true)) (bc.off + required + remaining - 8) (setWord remaining true)) (bc.off + required + 72) pm) (bc.off + required + 64) v) (bc.off + required + 64) = v :=
    fun v => wr_self _ _ _
  have hT6frame : ∀ v j, (j < bc.off ∨ bc.off + bc.size ≤ j) →
      (wr (wr (wr (wr (wr (wr s.mem bc.off (setWord required false)) (bc.off + required - 8) (setWord required false)) (bc.off + required) (setWord remaining true)) (bc.off + required + remaining - 8) (setWord remaining true)) (bc.off + required + 72) pm) (bc.off + required + 64) v) j = s.mem j := by
    intro v j hj
    rw [wr_other _ _ _ _ (by omega), wr_other _ _ _ _ (by omega),
      wr_other _ _ _ _ (by omega), wr_other _ _ _ _ (by omega),
      wr_other _ _ _ _ (by omega), wr_other _ _ _ _ (by omega)]
  have hT6hdr1 : ∀ v, (wr (wr (wr (wr (wr (wr s.mem bc.off (setWord required false)) (bc.off + required - 8) (setWord required false)) (bc.off + required) (setWord remaining true)) (bc.off + required + remaining - 8) (setWord remaining true)) (bc.off + required + 72) pm) (bc.off + required + 64) v) bc.off = setWord required false := by
    intro v
    rw [wr_other _ _ _ _ (by omega), wr_other _ _ _ _ (by omega),
      wr_other _ _ _ _ (by omega), wr_other _ _ _ _ (by omega),
      wr_other _ _ _ _ (by omega), wr_self]
  have hT6ftr1 : ∀ v, (wr (wr (wr (wr (wr (wr s.mem bc.off (setWord required false)) (bc.off + required - 8) (setWord required false)) (bc.off + required) (setWord remaining true)) (bc.off + required + remaining - 8) (setWord remaining true)) (bc.off + required + 72) pm) (bc.off + required + 64) v) (bc.off + required - 8) = setWord required false := by
    intro v
    rw [wr_other _ _ _ _ (by omega), wr_other _ _ _ _ (by omega),
      wr_other _ _ _ _ (by omega), wr_other _ _ _ _ (by omega), wr_self]
  have hT6hdr2 : ∀ v, (wr (wr (wr (wr (wr (wr s.mem bc.off (setWord required false)) (bc.off + required - 8) (setWord required false)) (bc.off + required) (setWord remaining true)) (bc.off + required + remaining - 8) (setWord remaining true)) (bc.off + required + 72) pm) (bc.off + required + 64) v) (bc.off + required) = setWord remaining true := by
    intro v
    rw [wr_other _ _ _ _ (by omega), wr_other _ _ _ _ (by omega),
      wr_other _ _ _ _ (by omega), wr_self]
  have hT6ftr2 : ∀ v, (wr (wr (wr (wr (wr (wr s.mem bc.off (setWord required false)) (bc.off + required - 8) (setWord required false)) (bc.off + required) (setWord remaining true)) (bc.off + required + remaining - 8) (setWord remaining true)) (bc.off + required + 72) pm) (bc.off + required + 64) v) (bc.off + required + remaining - 8) = setWord remaining true := by
    intro v
    rw [wr_other _ _ _ _ (by omega), wr_other _ _ _ _ (by omega), wr_self]
  rcases L1 with _ | ⟨l, ls⟩
  · obtain ⟨hpm0, hfh⟩ := hseg1
    subst hpm0
    rcases LS2 with _ | ⟨n, rest⟩
    · -- no predecessor, no successor: list head becomes the remainder
      have hN0 : s.mem (bc.off + 64) = 0 := hseg2
      have heq : allocSplit s bc.off required remaining =
          { mem := wr (wr (wr (wr (wr (wr s.mem bc.off (setWord required false)) (bc.off + required - 8) (setWord required false)) (bc.off + required) (setWord remaining true)) (bc.off + required + remaining - 8) (setWord remaining true)) (bc.off + required + 72) 0) (bc.off + required + 64) 0, freeHead := bc.off + required, firstBlock := s.firstBlock } := by
        simp only [allocSplit, updFooter, wr_self,
          getSize_setWord required false hreqeven,
          getSize_setWord remaining true hremeven, hT5r72, hT5r64, hN0,
          hT6r72, hT6r64]
        simp [hT6r64]
      rw [heq]
      refine ⟨_, _, splitHeapOK h hbcf hsz hreq128 hreqeven hrem _ rfl ?_
        (hT6hdr1 0) (hT6ftr1 0) (hT6hdr2 0) (hT6ftr2 0) ?_⟩
      · intro k2 hk2 hsafe
        exact hT6frame 0 k2 hk2
      · exact ⟨rfl, by omega, hT6r72 0, hT6r64 0⟩
    · -- no predecessor, successor `n`: head := remainder, `n.prev` := remainder
      obtain ⟨hNn, hn0, hnprev, hrest⟩ := hseg2
      have hnmem : n ∈ ([] : List Nat) ++ bc.off :: n :: rest := by simp
      have hnbc : n ≠ bc.off := fun he => hcLS2 (he ▸ List.mem_cons_self n rest)
      have hnrange := hfieldOut n hnmem hnbc
      have hnnb : n ≠ bc.off + required := hnotIn n hnmem required (by omega) (by omega)
      have hnnb8 : n ≠ bc.off + (required - 8) :=
        hnotIn n hnmem (required - 8) (by omega) (by omega)
      have heq : allocSplit s bc.off required remaining =
          { mem := wr (wr (wr (wr (wr (wr (wr s.mem bc.off (setWord required false)) (bc.off + required - 8) (setWord required false)) (bc.off + required) (setWord remaining true)) (bc.off + required + remaining - 8) (setWord remaining true)) (bc.off + required + 72) 0) (bc.off + required + 64) n) (n + 72) (bc.off + required), freeHead := bc.off + required, firstBlock := s.firstBlock } := by
        simp only [allocSplit, updFooter, wr_self,
          getSize_setWord required false hreqeven,
          getSize_setWord remaining true hremeven, hT5r72, hT5r64, hNn,
          hT6r72, hT6r64]
        simp [hT6r64, hn0]
      rw [heq]
      refine ⟨_, _, splitHeapOK h hbcf hsz hreq128 hreqeven hrem _ rfl ?_ ?_ ?_ ?_ ?_ ?_⟩
      · intro k2 hk2 hsafe
        dsimp only
        rw [wr_other _ _ _ _ (hsafe n hnmem).2]
        exact hT6frame n k2 hk2
      · dsimp only
        rw [wr_other _ _ _ _ (by omega)]
        exact hT6hdr1 n
      · dsimp only
        rw [wr_other _ _ _ _ (by omega)]
        exact hT6ftr1 n
      · dsimp only
        rw [wr_other _ _ _ _ (by omega)]
        exact hT6hdr2 n
      · dsimp only
        rw [wr_other _ _ _ _ (by omega)]
        exact hT6ftr2 n
      · dsimp only
        refine ⟨rfl, by omega, ?_, ?_, hn0, wr_self _ _ _, ?_⟩
        · rw [wr_other _ _ _ _ (by omega)]
          exact hT6r72 n
        · rw [wr_other _ _ _ _ (by omega)]
          exact hT6r64 n
        · have hrd : (wr (wr (wr (wr (wr (wr (wr s.mem bc.off (setWord required false)) (bc.off + required - 8) (setWord required false)) (bc.off + required) (setWord remaining true)) (bc.off + required + remaining - 8) (setWord remaining true)) (bc.off + required + 72) 0) (bc.off + required + 64) n) (n + 72) (bc.off + required)) (n + 64) = s.mem (n + 64) := by
            rw [wr_other _ _ _ _ (by omega)]
            exact hT6frame n (n + 64) (by omega)
          rw [hrd]
          refine flSeg_frame hrest ?_
          intro x hx
          have hxmem : x ∈ ([] : List Nat) ++ bc.off :: n :: rest := by simp [hx]
          have hxbc : x ≠ bc.off := fun he =>
            hcLS2 (he ▸ List.mem_cons.mpr (Or.inr hx))
          have hxn : x ≠ n := fun he =>
            (List.nodup_cons.mp (List.nodup_cons.mp hnodup3.2.1).2).1 (he ▸ hx)
          have hfar := hFarMem x hxmem n hnmem hxn
          have hxrange := hfieldOut x hxmem hxbc
          constructor
          · rw [wr_other _ _ _ _ (by rcases hfar with hf | hf <;> omega)]
            exact hT6frame n _ (by omega)
          · rw [wr_other _ _ _ _ (by rcases hfar with hf | hf <;> omega)]
            exact hT6frame n _ (by omega)
  · -- predecessor `pm` exists: its next pointer is redirected in place
    have hpmmem0 : pm ∈ l :: ls := (flSegTo_last hseg1).1
    have hpmmemF : pm ∈ (l :: ls) ++ bc.off :: LS2 :=
      List.mem_append.mpr (Or.inl hpmmem0)
    have hpmne : pm ≠ 0 := flSeg_mem_ne_zero h.fl pm hpmmemF
    have hpmbc : pm ≠ bc.off := fun he => hcL1 (he ▸ hpmmem0)
    have hpmrange := hfieldOut pm hpmmemF hpmbc
    have hpmnb : pm ≠ bc.off + required := hnotIn pm hpmmemF required (by omega) (by omega)
    have hpmnb8 : pm ≠ bc.off + (required + 8) :=
      hnotIn pm hpmmemF (required + 8) (by omega) (by omega)
    have hrdS1 : ∀ v, (wr (wr (wr (wr (wr (wr (wr s.mem bc.off (setWord required false)) (bc.off + required - 8) (setWord required false)) (bc.off + required) (setWord remaining true)) (bc.off + required + remaining - 8) (setWord remaining true)) (bc.off + required + 72) pm) (bc.off + required + 64) v) (pm + 64) (bc.off + required)) (bc.off + required + 64) = v := by
      intro v
      rw [wr_other _ _ _ _ (by omega)]
      exact hT6r64 v
    rcases LS2 with _ | ⟨n, rest⟩
    · -- predecessor, no successor
      have hN0 : s.mem (bc.off + 64) = 0 := hseg2
      have heq : allocSplit s bc.off required remaining =
          { mem := wr (wr (wr (wr (wr (wr (wr s.mem bc.off (setWord required false)) (bc.off + required - 8) (setWord required false)) (bc.off + required) (setWord remaining true)) (bc.off + required + remaining - 8) (setWord remaining true)) (bc.off + required + 72) pm) (bc.off + required + 64) 0) (pm + 64) (bc.off + required), freeHead := s.freeHead, firstBlock := s.firstBlock } := by
        simp only [allocSplit, updFooter, wr_self,
          getSize_setWord required false hreqeven,
          getSize_setWord remaining true hremeven, hT5r72, hT5r64, hN0,
          hT6r72, hT6r64]
        simp [hrdS1, hpmne]
      rw [heq]
      have hprev : ∀ x ∈ l :: ls,
          (wr (wr (wr (wr (wr (wr (wr s.mem bc.off (setWord required false)) (bc.off + required - 8) (setWord required false)) (bc.off + required) (setWord remaining true)) (bc.off + required + remaining - 8) (setWord remaining true)) (bc.off + required + 72) pm) (bc.off + required + 64) 0) (pm + 64) (bc.off + required)) (x + 72) = s.mem (x + 72) := by
        intro x hx
        have hxmem : x ∈ (l :: ls) ++ bc.off :: ([] : List Nat) :=
          List.mem_append.mpr (Or.inl hx)
        have hxbc : x ≠ bc.off := fun he => hcL1 (he ▸ hx)
        have hxrange := hfieldOut x hxmem hxbc
        by_cases hxpm : x = pm
        · subst hxpm
          rw [wr_other _ _ _ _ (by omega)]
          exact hT6frame 0 _ (by omega)
        · have hfar := hFarMem x hxmem pm hpmmemF hxpm
          rw [wr_other _ _ _ _ (by rcases hfar with hf | hf <;> omega)]
          exact hT6frame 0 _ (by omega)
      have hnext : ∀ x ∈ l :: ls, x ≠ pm →
          (wr (wr (wr (wr (wr (wr (wr s.mem bc.off (setWord required false)) (bc.off + required - 8) (setWord required false)) (bc.off + required) (setWord remaining true)) (bc.off + required + remaining - 8) (setWord remaining true)) (bc.off + required + 72) pm) (bc.off + required + 64) 0) (pm + 64) (bc.off + required)) (x + 64) = s.mem (x + 64) := by
        intro x hx hxpm
        have hxmem : x ∈ (l :: ls) ++ bc.off :: ([] : List Nat) :=
          List.mem_append.mpr (Or.inl hx)
        have hxbc : x ≠ bc.off := fun he => hcL1 (he ▸ hx)
        have hxrange := hfieldOut x hxmem hxbc
        have hfar := hFarMem x hxmem pm hpmmemF hxpm
        rw [wr_other _ _ _ _ (by rcases hfar with hf | hf <;> omega)]
        exact hT6frame 0 _ (by omega)
      have hA := flSegTo_set_last_next hseg1 hnodup3.1 hprev hnext
      rw [wr_self] at hA
      refine ⟨_, _, splitHeapOK h hbcf hsz hreq128 hreqeven hrem _ rfl ?_ ?_ ?_ ?_ ?_ ?_⟩
      · intro k2 hk2 hsafe
        dsimp only
        rw [wr_other _ _ _ _ (hsafe pm hpmmemF).1]
        exact hT6frame 0 k2 hk2
      · dsimp only
        rw [wr_other _ _ _ _ (by omega)]
        exact hT6hdr1 0
      · dsimp only
        rw [wr_other _ _ _ _ (by omega)]
        exact hT6ftr1 0
      · dsimp only
        rw [wr_other _ _ _ _ (by omega)]
        exact hT6hdr2 0
      · dsimp only
        rw [wr_other _ _ _ _ (by omega)]
        exact hT6ftr2 0
      · dsimp only
        refine flSeg_append.mpr ⟨pm, bc.off + required, hA, ?_, by omega, ?_, ?_⟩
        · rfl
        · rw [wr_other _ _ _ _ (by omega)]
          exact hT6r72 0
        · rw [wr_other _ _ _ _ (by omega)]
          exact hT6r64 0
    · -- predecessor and successor
      obtain ⟨hNn, hn0, hnprev, hrest⟩ := hseg2
      have hnmem : n ∈ (l :: ls) ++ bc.off :: n :: rest := by simp
      have hnbc : n ≠ bc.off := fun he => hcLS2 (he ▸ List.mem_cons_self n rest)
      have hnrange := hfieldOut n hnmem hnbc
      have hnnb : n ≠ bc.off + required := hnotIn n hnmem required (by omega) (by omega)
      have hnnb8 : n ≠ bc.off + (required - 8) :=
        hnotIn n hnmem (required - 8) (by omega) (by omega)
      have hnpm : n ≠ pm := fun he =>
        hnodup3.2.2 hpmmem0 (he ▸ List.mem_cons.mpr (Or.inr (List.mem_cons_self n rest)))
      have hfarnpm := hFarMem n hnmem pm hpmmemF hnpm
      have heq : allocSplit s bc.off required remaining =
          { mem := wr (wr (wr (wr (wr (wr (wr (wr s.mem bc.off (setWord required false)) (bc.off + required - 8) (setWord required false)) (bc.off + required) (setWord remaining true)) (bc.off + required + remaining - 8) (setWord remaining true)) (bc.off + required + 72) pm) (bc.off + required + 64) n) (pm + 64) (bc.off + required)) (n + 72) (bc.off + required), freeHead := s.freeHead, firstBlock := s.firstBlock } := by
        simp only [allocSplit, updFooter, wr_self,
          getSize_setWord required false hreqeven,
          getSize_setWord remaining true hremeven, hT5r72, hT5r64, hNn,
          hT6r72, hT6r64]
        simp [hrdS1, hpmne, hn0]
      rw [heq]
      have hprev : ∀ x ∈ l :: ls,
          (wr (wr (wr (wr (wr (wr (wr (wr s.mem bc.off (setWord required false)) (bc.off + required - 8) (setWord required false)) (bc.off + required) (setWord remaining true)) (bc.off + required + remaining - 8) (setWord remaining true)) (bc.off + required + 72) pm) (bc.off + required + 64) n) (pm + 64) (bc.off + required)) (n + 72) (bc.off + required)) (x + 72) = s.mem (x + 72) := by
        intro x hx
        have hxmem : x ∈ (l :: ls) ++ bc.off :: n :: rest :=
          List.mem_append.mpr (Or.inl hx)
        have hxbc : x ≠ bc.off := fun he => hcL1 (he ▸ hx)
        have hxrange := hfieldOut x hxmem hxbc
        have hxn : x ≠ n := fun he =>
          hnodup3.2.2 hx (by rw [he]; simp)
        have hfarn := hFarMem x hxmem n hnmem hxn
        by_cases hxpm : x = pm
        · subst hxpm
          rw [wr_other _ _ _ _ (by rcases hfarn with hf | hf <;> omega),
            wr_other _ _ _ _ (by omega)]
          exact hT6frame n _ (by omega)
        · have hfar := hFarMem x hxmem pm hpmmemF hxpm
          rw [wr_other _ _ _ _ (by rcases hfarn with hf | hf <;> omega),
            wr_other _ _ _ _ (by rcases hfar with hf | hf <;> omega)]
          exact hT6frame n _ (by omega)
      have hnext : ∀ x ∈ l :: ls, x ≠ pm →
          (wr (wr (wr (wr (wr (wr (wr (wr s.mem bc.off (setWord required false)) (bc.off + required - 8) (setWord required false)) (bc.off + required) (setWord remaining true)) (bc.off + required + remaining - 8) (setWord remaining true)) (bc.off + required + 72) pm) (bc.off + required + 64) n) (pm + 64) (bc.off + required)) (n + 72) (bc.off + required)) (x + 64) = s.mem (x + 64) := by
        intro x hx hxpm
        have hxmem : x ∈ (l :: ls) ++ bc.off :: n :: rest :=
          List.mem_append.mpr (Or.inl hx)
        have hxbc : x ≠ bc.off := fun he => hcL1 (he ▸ hx)
        have hxrange := hfieldOut x hxmem hxbc
        have hxn : x ≠ n := fun he =>
          hnodup3.2.2 hx (by rw [he]; simp)
        have hfarn := hFarMem x hxmem n hnmem hxn
        have hfar := hFarMem x hxmem pm hpmmemF hxpm
        rw [wr_other _ _ _ _ (by rcases hfarn with hf | hf <;> omega),
          wr_other _ _ _ _ (by rcases hfar with hf | hf <;> omega)]
        exact hT6frame n _ (by omega)
      have hA := flSegTo_set_last_next hseg1 hnodup3.1 hprev hnext
      have hApm : (wr (wr (wr (wr (wr (wr (wr (wr s.mem bc.off (setWord required false)) (bc.off + required - 8) (setWord required false)) (bc.off + required) (setWord remaining true)) (bc.off + required + remaining - 8) (setWord remaining true)) (bc.off + required + 72) pm) (bc.off + required + 64) n) (pm + 64) (bc.off + required)) (n + 72) (bc.off + required)) (pm + 64) = bc.off + required := by
        rw [wr_other _ _ _ _ (by rcases hfarnpm with hf | hf <;> omega), wr_self]
      rw [hApm] at hA
      refine ⟨_, _, splitHeapOK h hbcf hsz hreq128 hreqeven hrem _ rfl ?_ ?_ ?_ ?_ ?_ ?_⟩
      · intro k2 hk2 hsafe
        dsimp only
        rw [wr_other _ _ _ _ (hsafe n hnmem).2, wr_other _ _ _ _ (hsafe pm hpmmemF).1]
        exact hT6frame n k2 hk2
      · dsimp only
        rw [wr_other _ _ _ _ (by omega), wr_other _ _ _ _ (by omega)]
        exact hT6hdr1 n
      · dsimp only
        rw [wr_other _ _ _ _ (by omega), wr_other _ _ _ _ (by omega)]
        exact hT6ftr1 n
      · dsimp only
        rw [wr_other _ _ _ _ (by omega), wr_other _ _ _ _ (by omega)]
        exact hT6hdr2 n
      · dsimp only
        rw [wr_other _ _ _ _ (by omega), wr_other _ _ _ _ (by omega)]
        exact hT6ftr2 n
      · dsimp only
        refine flSeg_append.mpr ⟨pm, bc.off + required, hA, ?_, by omega, ?_, ?_, hn0, wr_self _ _ _, ?_⟩
        · rfl
        · rw [wr_other _ _ _ _ (by omega),
            wr_other _ _ _ _ (by rcases hfarnpm with hf | hf <;> omega)]
          exact hT6r72 n
        · rw [wr_other _ _ _ _ (by omega), wr_other _ _ _ _ (by omega)]
          exact hT6r64 n
        · have hrd : (wr (wr (wr (wr (wr (wr (wr (wr s.mem bc.off (setWord required false)) (bc.off + required - 8) (setWord required false)) (bc.off + required) (setWord remaining true)) (bc.off + required + remaining - 8) (setWord remaining true)) (bc.off + required + 72) pm) (bc.off + required + 64) n) (pm + 64) (bc.off + required)) (n + 72) (bc.off + required)) (n + 64) = s.mem (n + 64) := by
            rw [wr_other _ _ _ _ (by omega),
              wr_other _ _ _ _ (by rcases hfarnpm with hf | hf <;> omega)]
            exact hT6frame n (n + 64) (by omega)
          rw [hrd]
          refine flSeg_frame hrest ?_
          intro x hx
          have hxmem : x ∈ (l :: ls) ++ bc.off :: n :: rest := by simp [hx]
          have hxbc : x ≠ bc.off := fun he =>
            hcLS2 (he ▸ List.mem_cons.mpr (Or.inr hx))
          have hxn : x ≠ n := fun he =>
            (List.nodup_cons.mp (List.nodup_cons.mp hnodup3.2.1).2).1 (he ▸ hx)
          have hxpm : x ≠ pm := fun he =>
            hnodup3.2.2 (he ▸ hpmmem0) (List.mem_cons.mpr (Or.inr (List.mem_cons.mpr (Or.inr hx))))
          have hfarn := hFarMem x hxmem n hnmem hxn
          have hfarp := hFarMem x hxmem pm hpmmemF hxpm
          have hxrange := hfieldOut x hxmem hxbc
          constructor
          · rw [wr_other _ _ _ _ (by rcases hfarn with hf | hf <;> omega),
              wr_other _ _ _ _ (by rcases hfarp with hf | hf <;> omega)]
            exact hT6frame n _ (by omega)
          · rw [wr_other _ _ _ _ (by rcases hfarn with hf | hf <;> omega),
              wr_other _ _ _ _ (by rcases hfarp with hf | hf <;> omega)]
            exact hT6frame n _ (by omega)

end Hyperion.Slab
namespace Hyperion.Slab

/-- The first-fit scan of `Allocate` preserves the heap invariant: at
every step the cursor heads the unvisited suffix of the free list;
fuel exhaustion, a null cursor, and both fit branches all leave a
well-formed heap, with the returned payload offset (if nonzero) added
to the live set. -/
theorem allocLoop_spec {E endo : Nat} {s : State} {live : List Nat}
    {bs : List Blk} {L : List Nat} (h : HeapOK E endo s live bs L)
    (required : Nat) (hreq128 : 128 ≤ required) (hreqeven : required % 2 = 0)
    (fuel : Nat) :
    ∀ (pm curr : Nat) (L1 LS : List Nat), L = L1 ++ LS →
      flSegTo s.mem 0 s.freeHead pm curr L1 →
      flSeg s.mem pm curr LS →
      Inv E endo (allocLoop required fuel s curr).2
        (if (allocLoop required fuel s curr).1 = 0 then live
         else (allocLoop required fuel s curr).1 :: live) := by
  induction fuel with
  | zero =>
      intro pm curr L1 LS hL hseg1 hseg2
      simp only [allocLoop]
      rw [if_pos trivial]
      exact ⟨bs, L, h⟩
  | succ fuel ih =>
      intro pm curr L1 LS hL hseg1 hseg2
      by_cases hc0 : curr = 0
      · have heq : allocLoop required (fuel + 1) s curr = (0, s) := by
          simp [allocLoop, hc0]
        rw [heq]
        rw [if_pos rfl]
        exact ⟨bs, L, h⟩
      · rcases LS with _ | ⟨o, LS2⟩
        · exact absurd hseg2 hc0
        · obtain ⟨hco, ho0, hoprev, hrest⟩ := hseg2
          subst hco
          have hcmem : curr ∈ L := by
            rw [hL]
            exact List.mem_append.mpr (Or.inr (List.mem_cons.mpr (Or.inl rfl)))
          obtain ⟨bc, hbc, hbco, hbcfree⟩ := h.memL curr hcmem
          subst hbco
          by_cases hfit : required ≤ getSize (s.mem bc.off)
          · obtain ⟨bs1, bs2, hbs⟩ := List.append_of_mem hbc
            rw [hbs, hL] at h
            have hsizeq : getSize (s.mem bc.off) = bc.size :=
              (h.blocks bc (by simp)).1
            by_cases hsplit : 136 ≤ getSize (s.mem bc.off) - required
            · have heq : allocLoop required (fuel + 1) s bc.off =
                  (bc.off + 64, allocSplit s bc.off required (getSize (s.mem bc.off) - required)) := by
                simp [allocLoop, hc0, hfit, hsplit]
              rw [heq]
              dsimp only
              rw [if_neg (by omega)]
              exact split_spec h hbcfree hreq128 hreqeven (by omega) hsplit
                (by omega) hseg1 hrest hoprev
            · have heq : allocLoop required (fuel + 1) s bc.off =
                  (bc.off + 64, allocWhole s bc.off) := by
                simp [allocLoop, hc0, hfit, hsplit]
              rw [heq]
              dsimp only
              rw [if_neg (by omega)]
              exact ⟨_, _, whole_spec h hbcfree⟩
          · have heq : allocLoop required (fuel + 1) s bc.off =
                allocLoop required fuel s (s.mem (bc.off + 64)) := by
              simp [allocLoop, hc0, hfit]
            rw [heq]
            exact ih bc.off (s.mem (bc.off + 64)) (L1 ++ [bc.off]) LS2
              (by rw [hL]; simp) (flSegTo_snoc hseg1 hc0 hoprev) hrest

/-- `(x + 63) & ~63` rounds up: the result is at least `x`. -/
theorem align64_le (x : Nat) : x ≤ align64 x := by
  unfold align64
  omega

/-- The rounded size is a multiple of 64. -/
theorem align64_mod64 (x : Nat) : align64 x % 64 = 0 := by
  unfold align64
  omega

/-- `Allocate` preserves the heap invariant, adding the returned
payload offset to the live set when the call succeeds. -/
theorem allocate_preserves {E endo : Nat} {s : State} {live : List Nat}
    (hInv : Inv E endo s live) (fuel n : Nat) :
    Inv E endo (allocate fuel s n).2
      (if (allocate fuel s n).1 = 0 then live else (allocate fuel s n).1 :: live) := by
  obtain ⟨bs, L, h⟩ := hInv
  by_cases hn : n = 0
  · have heq : allocate fuel s n = (0, s) := by
      simp [allocate, hn]
    rw [heq]
    rw [if_pos rfl]
    exact ⟨bs, L, h⟩
  · have heq : allocate fuel s n =
        allocLoop (align64 (64 + align64 n + 8)) fuel s s.freeHead := by
      simp [allocate, hn]
    rw [heq]
    have h1 := align64_le n
    have h2 := align64_mod64 n
    have h3 := align64_le (64 + align64 n + 8)
    have h4 := align64_mod64 (64 + align64 n + 8)
    exact allocLoop_spec h _ (by omega) (by omega) fuel 0 s.freeHead [] L rfl
      ⟨rfl, rfl⟩ h.fl

end Hyperion.Slab
namespace Hyperion.Slab

/-- Every reachable heap state (over a region whose aligned part has
even size at least 128 bytes and nonzero effective start) satisfies
the heap invariant. -/
theorem inv_reached {baseOff totalSize adj : Nat} {s : State} {live : List Nat}
    (hr : Reached baseOff totalSize adj s live)
    (h128 : 128 ≤ totalSize - adj) (heven : (totalSize - adj) % 2 = 0)
    (hpos : 0 < baseOff + adj) :
    Inv (baseOff + adj) (baseOff + totalSize) s live := by
  induction hr with
  | init m0 => exact init_inv baseOff totalSize adj m0 h128 heven hpos
  | alloc s live fuel n hr ih => exact allocate_preserves ih fuel n
  | freeDo s live p hr hp ih =>
      rw [Nat.add_comm baseOff totalSize] at ih ⊢
      exact free_preserves p ih hp

end Hyperion.Slab

/-- C4: for every slab heap state reachable from `Init` (on a region
whose 64-byte-aligned part has even size at least 128 bytes and
nonzero virtual start) by any sequence of `Allocate` and `Free` calls,
after a further `Free` of any live payload offset completes, the heap
tiles into an address-ordered chain of blocks whose headers decode to
the abstraction, and no two blocks adjacent in address order are both
free. -/
theorem C4_no_adjacent_free_after_free
    (baseOff totalSize adj : Nat) (s : Hyperion.Slab.State) (live : List Nat)
    (p : Nat)
    (h128 : 128 ≤ totalSize - adj) (heven : (totalSize - adj) % 2 = 0)
    (hpos : 0 < baseOff + adj)
    (hr : Hyperion.Slab.Reached baseOff totalSize adj s live) (hp : p ∈ live) :
    ∃ bs, Hyperion.Slab.chainFrom (baseOff + adj) (baseOff + totalSize) bs
      ∧ (∀ b ∈ bs,
          Hyperion.Slab.getSize ((Hyperion.Slab.freeOp baseOff totalSize s p).mem b.off) = b.size
          ∧ Hyperion.Slab.isFree ((Hyperion.Slab.freeOp baseOff totalSize s p).mem b.off) = b.free)
      ∧ List.Chain' (fun x y => x.free = false ∨ y.free = false) bs := by
  have hInv := Hyperion.Slab.inv_reached hr h128 heven hpos
  rw [Nat.add_comm baseOff totalSize] at hInv
  have hfree := Hyperion.Slab.free_preserves p hInv hp
  obtain ⟨bs, L, hH⟩ := hfree
  refine ⟨bs, ?_, ?_, hH.noadj⟩
  · have := hH.chain
    rw [Nat.add_comm totalSize baseOff] at this
    exact this
  · exact fun b hb => ⟨(hH.blocks b hb).1, (hH.blocks b hb).2.1⟩

/-- Witness for C4: on a 1 KiB region at virtual base offset 64
(aligned backing), one `Allocate(100)` hands out payload offset 128;
freeing it leaves a heap whose blocks tile the region with no two
adjacent free blocks. -/
theorem C4_no_adjacent_free_after_free_witness :
    ∃ bs, Hyperion.Slab.chainFrom (64 + 0) (64 + 1024) bs
      ∧ (∀ b ∈ bs,
          Hyperion.Slab.getSize ((Hyperion.Slab.freeOp 64 1024 (Hyperion.Slab.allocate 4 (Hyperion.Slab.init 64 1024 0 (fun _ => 0)) 100).2 (Hyperion.Slab.allocate 4 (Hyperion.Slab.init 64 1024 0 (fun _ => 0)) 100).1).mem b.off) = b.size
          ∧ Hyperion.Slab.isFree ((Hyperion.Slab.freeOp 64 1024 (Hyperion.Slab.allocate 4 (Hyperion.Slab.init 64 1024 0 (fun _ => 0)) 100).2 (Hyperion.Slab.allocate 4 (Hyperion.Slab.init 64 1024 0 (fun _ => 0)) 100).1).mem b.off) = b.free)
      ∧ List.Chain' (fun x y => x.free = false ∨ y.free = false) bs := by
  have h1 : Hyperion.Slab.Reached 64 1024 0
      (Hyperion.Slab.init 64 1024 0 (fun _ => 0)) [] :=
    Hyperion.Slab.Reached.init _
  have h2 := Hyperion.Slab.Reached.alloc _ _ 4 100 h1
  rw [if_neg (by decide)] at h2
  exact C4_no_adjacent_free_after_free 64 1024 0 _ _ _ (by decide) (by decide)
    (by decide) h2 (List.mem_cons.mpr (Or.inl rfl))
